/-
  Verification development for the nabnation-top-100 chart scripts.

  The JavaScript sources (the main chart.js script and the catalog-backed
  page scripts) are embedded shallowly:
  - JS strings are Lean `String`s, processed as their character lists;
  - JS `Map` objects are insertion-ordered association lists (`AMap`);
  - JS numbers that can be `NaN`/missing are `Option Int`; JS `null` is `none`;
  - JS string comparison (`<`, `<=`) is code-point lexicographic comparison,
    embedded as the executable `strLt`/`strLe`;
  - regular-expression based cleaning is embedded as explicit left-to-right
    character scanners with the same match semantics.
-/
import Mathlib

/- ===== generic helpers: JS-style whitespace, comparison, maps ===== -/

/-- The whitespace characters relevant to the embedded scripts (the ASCII
part of the JS `\s` class and of `String.prototype.trim`). -/
def jsWs (c : Char) : Bool :=
  c == ' ' || c == '\t' || c == '\n' || c == '\r' || c == '\x0b' || c == '\x0c'

/-- Lexicographic (code point) strict comparison of character lists,
the semantics of JS `<` on strings. -/
def lexLt : List Char → List Char → Bool
  | [], [] => false
  | [], _ :: _ => true
  | _ :: _, [] => false
  | a :: as, b :: bs =>
    if a.toNat < b.toNat then true
    else if b.toNat < a.toNat then false
    else lexLt as bs

/-- Lexicographic (code point) non-strict comparison of character lists,
the semantics of JS `<=` on strings. -/
def lexLe : List Char → List Char → Bool
  | [], _ => true
  | _ :: _, [] => false
  | a :: as, b :: bs =>
    if a.toNat < b.toNat then true
    else if b.toNat < a.toNat then false
    else lexLe as bs

def strLt (a b : String) : Bool := lexLt a.data b.data

def strLe (a b : String) : Bool := lexLe a.data b.data

/-- Lowercasing a character list (JS `toLowerCase` on the ASCII fragment). -/
def lowerChars (l : List Char) : List Char := l.map Char.toLower

def jsTrimL (l : List Char) : List Char := l.dropWhile jsWs

def jsTrimR (l : List Char) : List Char := (l.reverse.dropWhile jsWs).reverse

/-- JS `String.prototype.trim`. -/
def jsTrim (l : List Char) : List Char := jsTrimR (jsTrimL l)

def dropTrailing (p : Char → Bool) (l : List Char) : List Char :=
  (l.reverse.dropWhile p).reverse

/-- State-carrying scanner for the JS replacement `replace(/\s+/g, " ")`:
every maximal whitespace run becomes a single space. -/
def collapseWsGo : Bool → List Char → List Char
  | _, [] => []
  | inWs, c :: cs =>
    if jsWs c then
      if inWs then collapseWsGo true cs else ' ' :: collapseWsGo true cs
    else c :: collapseWsGo false cs

def collapseWs (l : List Char) : List Char := collapseWsGo false l

def isPrefixChars : List Char → List Char → Bool
  | [], _ => true
  | _ :: _, [] => false
  | a :: as, b :: bs => a == b && isPrefixChars as bs

/-- Substring containment on character lists (JS `String.prototype.includes`). -/
def containsSub (pat : List Char) : List Char → Bool
  | [] => isPrefixChars pat []
  | c :: t => isPrefixChars pat (c :: t) || containsSub pat t

/-- JS `Math.abs` on integers. -/
def jsAbs (v : Int) : Int := if v < 0 then -v else v

/-- Insertion-ordered association list: the embedding of a JS `Map` with
string keys. -/
abbrev AMap (β : Type) := List (String × β)

/-- JS `Map.prototype.get` (`none` for a missing key). -/
def amapGet {β : Type} : AMap β → String → Option β
  | [], _ => none
  | (k', v) :: rest, k => if k' = k then some v else amapGet rest k

/-- JS `Map.prototype.set`: update in place keeps the original insertion
position; a new key is appended at the end. -/
def amapSet {β : Type} : AMap β → String → β → AMap β
  | [], k, v => [(k, v)]
  | (k', v') :: rest, k, v =>
    if k' = k then (k', v) :: rest else (k', v') :: amapSet rest k v

/- ===== data model ===== -/

/-- One `{week, rank}` pair of a song's chart history. -/
structure Appearance where
  week : String
  rank : Int
deriving DecidableEq

/-- The ranks a raw history records for a given week (helper for
stating the de-duplication properties). -/
def ranksAt (h : List Appearance) (w : String) : List Int :=
  (h.filter (fun a => decide (a.week = w))).map (fun a => a.rank)

/-- Minimum combination of optional ranks (helper for the fold lemmas). -/
def omin : Option Int → Option Int → Option Int
  | none, b => b
  | some a, none => some a
  | some a, some b => some (min a b)

/-- Minimum of a list of ranks, `none` on the empty list. -/
def listMinInt (l : List Int) : Option Int :=
  l.foldl (fun o r => omin o (some r)) none

/- ===== part_001: dedupHistory / statsAsOf / lastWeekRankImmediate ===== -/

/-- `dedupHistory` step: JS `bestByWeek.set(w, r)` or
`bestByWeek.set(w, Math.min(bestByWeek.get(w), r))`. -/
def dedupInsert (m : AMap Int) (w : String) (r : Int) : AMap Int :=
  match amapGet m w with
  | none => amapSet m w r
  | some r0 => amapSet m w (min r0 r)

/-- part_001 `dedupHistory`: one appearance per week, keeping the
numerically lowest rank, weeks in first-occurrence order. -/
def dedupHistory (history : List Appearance) : List Appearance :=
  (history.foldl (fun m a => dedupInsert m a.week a.rank) []).map
    (fun p => ⟨p.1, p.2⟩)

/-- Return value of `statsAsOf` (`{peak, weeks}` with JS `null` as `none`). -/
structure AsOfStats where
  peak : Option Int
  weeks : Option Nat
deriving DecidableEq

/-- part_001 `statsAsOf`: peak and weeks computed from the de-duplicated
history restricted to `week <= weekStr`.  A song object without a history
array gives `{peak: null, weeks: null}`; an empty restriction gives
`{peak: null, weeks: 0}`. -/
def statsAsOf (songHistory : Option (List Appearance)) (weekStr : String) : AsOfStats :=
  match songHistory with
  | none => ⟨none, none⟩
  | some history =>
    let hist := dedupHistory history
    match hist.filter (fun h => strLe h.week weekStr) with
    | [] => ⟨none, some 0⟩
    | x :: xs => ⟨some (xs.foldl (fun m a => min m a.rank) x.rank), some (xs.length + 1)⟩

/-- part_001 `lastWeekRankImmediate`: the rank at exactly `prevWeekStr` in
the de-duplicated history, `null` otherwise (including a falsy
`prevWeekStr`). -/
def lastWeekRankImmediate (songHistory : Option (List Appearance))
    (prevWeekStr : Option String) : Option Int :=
  match prevWeekStr with
  | none => none
  | some p =>
    if p = "" then none
    else
      match songHistory with
      | none => none
      | some history =>
        match (dedupHistory history).find? (fun a => decide (a.week = p)) with
        | some hit => some hit.rank
        | none => none

/-- part_001 `getPrevWeek`: the entry after `currentWeek` in the
newest-first manifest list (`weeks[idx + 1] || null`, so a missing entry
and an empty string both give `null`). -/
def getPrevWeek (weeksNewestFirst : List String) (currentWeek : String) : Option String :=
  match weeksNewestFirst.findIdx? (fun w => w == currentWeek) with
  | none => none
  | some idx =>
    match weeksNewestFirst[idx + 1]? with
    | none => none
    | some w => if w = "" then none else some w

/- ===== chart.js: string cleaning ===== -/

/-- chart.js `safeText`: `String(v ?? "").trim()`. -/
def safeTextChars (l : List Char) : List Char := jsTrim l

/-- The trailing-asterisk strip `s.replace(/\s*\*+\s*$/g, "")`: the final
whitespace run, the final asterisk run before it, and the whitespace run
before that are removed, provided at least one asterisk is present at the
(whitespace-trimmed) end. -/
def stripTrailingStars (l : List Char) : List Char :=
  let l1 := dropTrailing jsWs l
  match l1.getLast? with
  | some c =>
    if c == '*' then dropTrailing jsWs (dropTrailing (fun d => d == '*') l1) else l
  | none => l

/-- The noise test of chart.js `cleanArtistName`: the lowercased content of
a parenthetical is noise when it contains "pt", "pts", "listener",
"listeners" or "new release" as a substring. -/
def noiseInner (inner : List Char) : Bool :=
  let t := lowerChars inner
  containsSub "pt".data t || containsSub "pts".data t ||
    containsSub "listener".data t || containsSub "listeners".data t ||
    containsSub "new release".data t

/-- Split a character list at the first closing parenthesis: content before
it (the `[^)]*` group) and the remainder after it. -/
def splitAtCloseParen : List Char → Option (List Char × List Char)
  | [] => none
  | c :: rest =>
    if c == ')' then some ([], rest)
    else
      match splitAtCloseParen rest with
      | some (inner, after) => some (c :: inner, after)
      | none => none

/-- Match of the regex `\s*\(([^)]*)\)\s*` anchored at the current scan
position: leading whitespace, an opening parenthesis, the content up to
the first closing parenthesis, and trailing whitespace.  Returns the
captured content and the remainder after the match. -/
def matchParenAt (l : List Char) : Option (List Char × List Char) :=
  match l.dropWhile jsWs with
  | '(' :: rest2 =>
    match splitAtCloseParen rest2 with
    | some (inner, after) => some (inner, after.dropWhile jsWs)
    | none => none
  | _ => none

/-- Replacement of one matched parenthetical: `" "` for noise content,
`" (inner) "` otherwise. -/
def parenReplacement (inner : List Char) : List Char :=
  if noiseInner inner then [' '] else ' ' :: '(' :: (inner ++ [')', ' '])

/-- Fuel-indexed left-to-right global replacement scanner for
`s.replace(/\s*\(([^)]*)\)\s*/g, ...)`; each step either replaces one
match and resumes after it, or emits one character. -/
def rpsGo : Nat → List Char → List Char
  | 0, l => l
  | _ + 1, [] => []
  | fuel + 1, c :: cs =>
    match matchParenAt (c :: cs) with
    | some (inner, after) => parenReplacement inner ++ rpsGo fuel after
    | none => c :: rpsGo fuel cs

/-- The global parenthetical replacement of chart.js `cleanArtistName`
(a match always consumes at least two characters, so the length of the
input is sufficient fuel). -/
def replaceParenSegs (l : List Char) : List Char := rpsGo l.length l

/-- chart.js `cleanArtistName`: trim, strip trailing asterisks, strip or
keep parenthetical segments, collapse whitespace, trim. -/
def cleanArtistName (raw : String) : String :=
  let s := safeTextChars raw.data
  let s := stripTrailingStars s
  let s := replaceParenSegs s
  String.mk (jsTrim (collapseWs s))

/-- chart.js `cleanTitle`: trim and collapse whitespace. -/
def cleanTitle (raw : String) : String :=
  String.mk (jsTrim (collapseWs (safeTextChars raw.data)))

/-- chart.js `songKey`: lowercased cleaned artist and title joined by an
em-dash separator, trimmed. -/
def songKeyChart (title artist : String) : String :=
  String.mk (jsTrim (lowerChars (cleanArtistName artist).data ++ " — ".data ++
    lowerChars (cleanTitle title).data))

/- ===== chart.js: movement classification and per-entry derivation ===== -/

inductive MovType where
  | new
  | re
  | up
  | down
  | same
deriving DecidableEq

/-- A movement tag `{type, value}` (value `null` for NEW/RE). -/
structure Movement where
  type : MovType
  value : Option Int
deriving DecidableEq

/-- A raw week-file entry; `rank` is `none` when `Number(raw.rank)` is not
a finite number. -/
structure RawEntry where
  title : String
  artist : String
  rank : Option Int
deriving DecidableEq

/-- One per-song accumulator record of chart.js `buildDerived`
(`{weeks, peak, debutDate, peakDate}`). -/
structure SeenStat where
  weeks : Int
  peak : Int
  debutDate : String
  peakDate : String
deriving DecidableEq

/-- The movement block of chart.js `deriveEntryForWeek`:
NEW when never charted before, RE when charted before but absent from the
immediately preceding chart, otherwise up/down/same from
`delta = lastWeekRank - rank`.  A `null` last-week rank coerces to `0` in
the JS subtraction; a `NaN` rank makes both comparisons false, landing in
the `same` branch. -/
def deriveMovement (wasEverBefore isInPrevWeek : Bool) (lastWeekRank : Option Int)
    (rank : Option Int) : Movement :=
  if !wasEverBefore then ⟨MovType.new, none⟩
  else if !isInPrevWeek then ⟨MovType.re, none⟩
  else
    match rank with
    | none => ⟨MovType.same, some 0⟩
    | some r =>
      let lw := lastWeekRank.getD 0
      let delta := lw - r
      if 0 < delta then ⟨MovType.up, some delta⟩
      else if delta < 0 then ⟨MovType.down, some (jsAbs delta)⟩
      else ⟨MovType.same, some 0⟩

/-- The render-ready view entry produced by chart.js `deriveEntryForWeek`
(cover plumbing omitted; `_key` is `key`). -/
structure DerivedEntry where
  rank : Option Int
  title : String
  artist : String
  movement : Movement
  lastWeek : Option Int
  peak : Option Int
  weeks : Option Int
  debutDate : Option String
  peakDate : Option String
  history : List Appearance
  key : String
deriving DecidableEq

/-- chart.js `deriveEntryForWeek`: builds the view entry, with the
last-week display forced to `null` for NEW and RE movements. -/
def deriveEntryForWeek (rawEntry : RawEntry) (targetWeek : String)
    (prevWeekRanks : AMap Int) (seenStats : AMap SeenStat)
    (historyMap : AMap (List Appearance)) (isInPrevWeek wasEverBefore : Bool) :
    DerivedEntry :=
  let title := cleanTitle rawEntry.title
  let artist := cleanArtistName rawEntry.artist
  let rank := rawEntry.rank
  let key := songKeyChart title artist
  let st := amapGet seenStats key
  let history := (amapGet historyMap key).getD []
  let lastWeekRank := amapGet prevWeekRanks key
  let movement := deriveMovement wasEverBefore isInPrevWeek lastWeekRank rank
  let lw := if movement.type = MovType.new ∨ movement.type = MovType.re then none
            else lastWeekRank
  { rank := rank, title := title, artist := artist, movement := movement,
    lastWeek := lw,
    peak := st.map (fun s => s.peak), weeks := st.map (fun s => s.weeks),
    debutDate := st.map (fun s => s.debutDate), peakDate := st.map (fun s => s.peakDate),
    history := history, key := key }

/- ===== chart.js: buildDerived and the main derivation loop ===== -/

/-- The per-entry body of the chart.js `buildDerived` week loop: malformed
entries (empty cleaned title or artist, non-numeric rank) are skipped;
well-formed ones update this week's rank map, the history map and the
running stats. -/
def processEntry (w : String)
    (acc : AMap Int × AMap (List Appearance) × AMap SeenStat)
    (raw : RawEntry) : AMap Int × AMap (List Appearance) × AMap SeenStat :=
  let title := cleanTitle raw.title
  let artist := cleanArtistName raw.artist
  if title = "" ∨ artist = "" then acc
  else
    match raw.rank with
    | none => acc
    | some rank =>
      let key := songKeyChart title artist
      let twr := amapSet acc.1 key rank
      let hm := amapSet acc.2.1 key (((amapGet acc.2.1 key).getD []) ++ [⟨w, rank⟩])
      let ss :=
        match amapGet acc.2.2 key with
        | none => amapSet acc.2.2 key ⟨1, rank, w, w⟩
        | some st =>
          let st1 : SeenStat := ⟨st.weeks + 1, st.peak, st.debutDate, st.peakDate⟩
          let st2 : SeenStat :=
            if rank < st1.peak then ⟨st1.weeks, rank, st1.debutDate, w⟩ else st1
          amapSet acc.2.2 key st2
      (twr, hm, ss)

/-- The chart.js per-song history display order: newest week first
(a stable sort by the week string, descending). -/
def sortHistoryDesc (arr : List Appearance) : List Appearance :=
  List.insertionSort (fun a b => strLe b.week a.week = true) arr

/-- The three maps chart.js `buildDerived` returns. -/
structure DerivedMaps where
  seenStats : AMap SeenStat
  historyMap : AMap (List Appearance)
  prevWeekRanks : AMap Int
deriving DecidableEq

/-- The week loop of chart.js `buildDerived`: process weeks in ascending
order, breaking after the target week so that `prevWeekRanks` keeps the
ranks of the week before it. -/
def buildDerivedGo (weeks : List String) (weekData : AMap (List RawEntry))
    (targetWeek : String) (seenStats : AMap SeenStat)
    (historyMap : AMap (List Appearance)) (prevWeekRanks : AMap Int) : DerivedMaps :=
  match weeks with
  | [] => ⟨seenStats, historyMap, prevWeekRanks⟩
  | w :: rest =>
    let entries := (amapGet weekData w).getD []
    let res := entries.foldl (processEntry w) ([], historyMap, seenStats)
    if w = targetWeek then ⟨res.2.2, res.2.1, prevWeekRanks⟩
    else buildDerivedGo rest weekData targetWeek res.2.2 res.2.1 res.1

/-- chart.js `buildDerived`: run the week loop from empty maps, then sort
every history newest-first for display. -/
def buildDerived (weeksAsc : List String) (weekData : AMap (List RawEntry))
    (targetWeek : String) : DerivedMaps :=
  let m := buildDerivedGo weeksAsc weekData targetWeek [] [] []
  ⟨m.seenStats, m.historyMap.map (fun kv => (kv.1, sortHistoryDesc kv.2)),
    m.prevWeekRanks⟩

/-- The key chart.js `buildDerived` and the main loop compute for a raw
entry (`songKey` applied to the cleaned title and artist). -/
def rawKey (raw : RawEntry) : String :=
  songKeyChart (cleanTitle raw.title) (cleanArtistName raw.artist)

/-- A raw entry the chart.js pipeline considers well formed: non-empty
cleaned title and artist and a finite numeric rank. -/
def wellFormedRaw (raw : RawEntry) : Prop :=
  cleanTitle raw.title ≠ "" ∧ cleanArtistName raw.artist ≠ "" ∧ raw.rank.isSome = true

/-- The derivation loop of chart.js `main`: derive stats up to the target
week, compute the previous-week membership set, and build one view entry
per raw entry of the target week (malformed entries are not filtered
here). -/
def mainDerivedEntries (weeksDesc : List String) (weekData : AMap (List RawEntry))
    (targetWeek : String) : List DerivedEntry :=
  let weeksAsc := weeksDesc.reverse
  let targetIdx? := weeksAsc.findIdx? (fun w => w == targetWeek)
  let neededWeeksAsc :=
    match targetIdx? with
    | some i => weeksAsc.take (i + 1)
    | none => []
  let maps := buildDerived neededWeeksAsc weekData targetWeek
  let prevWeek : Option String :=
    match targetIdx? with
    | some i => if 0 < i then weeksAsc[i - 1]? else none
    | none => none
  let prevWeekEntries := (prevWeek.bind (fun w => amapGet weekData w)).getD []
  let prevWeekSet := prevWeekEntries.map (fun e => songKeyChart e.title e.artist)
  let rawEntries := (amapGet weekData targetWeek).getD []
  rawEntries.map (fun raw =>
    let title := cleanTitle raw.title
    let artist := cleanArtistName raw.artist
    let key := songKeyChart title artist
    let isInPrev := prevWeekSet.contains key
    let everBefore := ((amapGet maps.historyMap key).getD []).any
      (fun h => strLt h.week targetWeek)
    deriveEntryForWeek raw targetWeek maps.prevWeekRanks maps.seenStats
      maps.historyMap isInPrev everBefore)

/- ===== chart.js: computeAwardsForWeek ===== -/

/-- The JS comparison `rank < best.rank` on possibly-NaN ranks: false
unless both sides are numbers. -/
def jsLtOpt : Option Int → Option Int → Bool
  | some a, some b => decide (a < b)
  | _, _ => false

/-- Candidate for Biggest Jump / Biggest Fall (`{key, delta, rank}`). -/
structure JumpCand where
  key : String
  delta : Int
  rank : Option Int
deriving DecidableEq

/-- Candidate for the Hot Shot awards (`{key, rank}`). -/
structure RankCand where
  key : String
  rank : Option Int
deriving DecidableEq

/-- Candidate for Longest Chart Sitter (`{key, weeks, rank}`). -/
structure SitCand where
  key : String
  weeks : Int
  rank : Option Int
deriving DecidableEq

/-- The five accumulators of the chart.js `computeAwardsForWeek` loop. -/
structure AwardsState where
  bestJump : Option JumpCand
  bestFall : Option JumpCand
  hotShotDebut : Option RankCand
  hotShotReentry : Option RankCand
  longestSitter : Option SitCand
deriving DecidableEq

/-- The longest-sitter update of the chart.js `computeAwardsForWeek`
loop (`if (typeof e.weeks === "number") ...`). -/
def sitterUpdate (acc : Option SitCand) (e : DerivedEntry) : Option SitCand :=
  match e.weeks with
  | some w =>
    match acc with
    | none => some ⟨e.key, w, e.rank⟩
    | some ls =>
      if w > ls.weeks || (w == ls.weeks && jsLtOpt e.rank ls.rank) then
        some ⟨e.key, w, e.rank⟩
      else acc
  | none => acc

/-- The Hot Shot Debut update (`if (e.movement?.type === "new") ...`). -/
def hotDebutUpdate (acc : Option RankCand) (e : DerivedEntry) : Option RankCand :=
  if e.movement.type = MovType.new then
    match acc with
    | none => some ⟨e.key, e.rank⟩
    | some hd => if jsLtOpt e.rank hd.rank then some ⟨e.key, e.rank⟩ else acc
  else acc

/-- The Hot Shot Re-Entry update (`if (e.movement?.type === "re") ...`). -/
def hotReentryUpdate (acc : Option RankCand) (e : DerivedEntry) : Option RankCand :=
  if e.movement.type = MovType.re then
    match acc with
    | none => some ⟨e.key, e.rank⟩
    | some hr => if jsLtOpt e.rank hr.rank then some ⟨e.key, e.rank⟩ else acc
  else acc

/-- The Biggest Jump update (`if (e.movement?.type === "up" && typeof
e.movement.value === "number") ...`). -/
def jumpUpdate (acc : Option JumpCand) (e : DerivedEntry) : Option JumpCand :=
  if e.movement.type = MovType.up then
    match e.movement.value with
    | some v =>
      let d := jsAbs v
      match acc with
      | none => some ⟨e.key, d, e.rank⟩
      | some b =>
        if d > b.delta || (d == b.delta && jsLtOpt e.rank b.rank) then
          some ⟨e.key, d, e.rank⟩
        else acc
    | none => acc
  else acc

/-- The Biggest Fall update (`if (e.movement?.type === "down" && typeof
e.movement.value === "number") ...`). -/
def fallUpdate (acc : Option JumpCand) (e : DerivedEntry) : Option JumpCand :=
  if e.movement.type = MovType.down then
    match e.movement.value with
    | some v =>
      let d := jsAbs v
      match acc with
      | none => some ⟨e.key, d, e.rank⟩
      | some b =>
        if d > b.delta || (d == b.delta && jsLtOpt e.rank b.rank) then
          some ⟨e.key, d, e.rank⟩
        else acc
    | none => acc
  else acc

/-- One iteration of the chart.js `computeAwardsForWeek` loop: the five
accumulators are updated independently from the same entry. -/
def awardsStep (s : AwardsState) (e : DerivedEntry) : AwardsState :=
  { bestJump := jumpUpdate s.bestJump e,
    bestFall := fallUpdate s.bestFall e,
    hotShotDebut := hotDebutUpdate s.hotShotDebut e,
    hotShotReentry := hotReentryUpdate s.hotShotReentry e,
    longestSitter := sitterUpdate s.longestSitter e }

/-- The full scan of one week's entries. -/
def awardsScan (entries : List DerivedEntry) : AwardsState :=
  entries.foldl awardsStep ⟨none, none, none, none, none⟩

/-- The Biggest Jump selection of chart.js `computeAwardsForWeek`. -/
def computeBestJump (entries : List DerivedEntry) : Option JumpCand :=
  (awardsScan entries).bestJump

/-- An award label as pushed into the awards map (`{text, color}`). -/
structure Award where
  text : String
  color : String
deriving DecidableEq

/-- The chart.js `add` helper of `computeAwardsForWeek`: append an award
to the (possibly new) list at `key`. -/
def awardAdd (m : AMap (List Award)) (k : String) (a : Award) : AMap (List Award) :=
  amapSet m k ((amapGet m k).getD [] ++ [a])

/-- One `if (winner) add(winner.key, award)` step of chart.js
`computeAwardsForWeek`. -/
def awardStage {γ : Type} (m : AMap (List Award)) (o : Option γ)
    (keyf : γ → String) (aw : γ → Award) : AMap (List Award) :=
  match o with
  | some b => awardAdd m (keyf b) (aw b)
  | none => m

/-- chart.js `computeAwardsForWeek`: scan the entries, then add the five
winners in order (jump, fall, debut, re-entry, sitter). -/
def computeAwardsForWeek (entries : List DerivedEntry) : AMap (List Award) :=
  let st := awardsScan entries
  let m : AMap (List Award) := []
  let m := awardStage m st.bestJump (fun b => b.key)
    (fun b => ⟨"Biggest Jump (+" ++ toString b.delta ++ ")", "#7cffb2"⟩)
  let m := awardStage m st.bestFall (fun b => b.key)
    (fun b => ⟨"Biggest Fall (-" ++ toString b.delta ++ ")", "#ff7c7c"⟩)
  let m := awardStage m st.hotShotDebut (fun b => b.key)
    (fun _ => ⟨"Hot Shot Debut", "#7cc7ff"⟩)
  let m := awardStage m st.hotShotReentry (fun b => b.key)
    (fun _ => ⟨"Hot Shot Re-Entry", "#b38cff"⟩)
  awardStage m st.longestSitter (fun b => b.key)
    (fun _ => ⟨"Longest Chart Sitter", "#ffd37c"⟩)

/-- An entry that participates in the Biggest Jump selection: UP movement
with a numeric value. -/
def isUpCand (e : DerivedEntry) : Bool :=
  decide (e.movement.type = MovType.up) && e.movement.value.isSome

/-- The jump delta of an entry (`Math.abs(e.movement.value)`). -/
def jDelta (e : DerivedEntry) : Int := jsAbs (e.movement.value.getD 0)

/-- The strict-improvement condition of the Biggest Jump update, as a
proposition: a larger delta, or an equal delta with a strictly lower
(numeric) current rank. -/
def beatsJump (e : DerivedEntry) (b : JumpCand) : Prop :=
  b.delta < jDelta e ∨ (jDelta e = b.delta ∧ jsLtOpt e.rank b.rank = true)

/- ===== part_001: canonical matching fallback ===== -/

def isLowerAlnum (c : Char) : Bool :=
  ('a' ≤ c && c ≤ 'z') || ('0' ≤ c && c ≤ '9')

/-- Unicode combining marks U+0300 to U+036F, removed by part_001 `canon`'s
accent-stripping replacement. -/
def isCombiningMark (c : Char) : Bool :=
  decide (0x300 ≤ c.toNat) && decide (c.toNat ≤ 0x36f)

/-- part_001 `canon`'s `replace(/&/g, "and")`. -/
def expandAmp : List Char → List Char
  | [] => []
  | c :: cs => if c == '&' then 'a' :: 'n' :: 'd' :: expandAmp cs else c :: expandAmp cs

/-- part_001 `canon`'s `replace(/[^a-z0-9]+/g, " ")`: every maximal run of
non-alphanumeric characters becomes one space. -/
def nonAlnumRunsGo : Bool → List Char → List Char
  | _, [] => []
  | inRun, c :: cs =>
    if isLowerAlnum c then c :: nonAlnumRunsGo false cs
    else if inRun then nonAlnumRunsGo true cs
    else ' ' :: nonAlnumRunsGo true cs

/-- part_001 `canon`: lowercase, NFKD-normalize (the identity on the ASCII
strings this development evaluates), strip combining marks, expand `&` to
`and`, map non-alphanumeric runs to one space, trim and collapse. -/
def canon (s : String) : String :=
  let l := lowerChars s.data
  let l := l.filter (fun c => !isCombiningMark c)
  let l := expandAmp l
  let l := nonAlnumRunsGo false l
  String.mk (collapseWs (jsTrim l))

/-- part_001 `canonKey`. -/
def canonKey (title artist : String) : String :=
  canon artist ++ " - " ++ canon title

/-- part_001 `songKey`: `` `${artist} - ${title}`.toLowerCase().trim() ``. -/
def songKeyP1 (title artist : String) : String :=
  String.mk (jsTrim (lowerChars (artist ++ " - " ++ title).data))

/-- The JS `split(" - ")` scanner (fuel-indexed; the separator is
non-empty, so the input's length is sufficient fuel). -/
def splitGo : Nat → List Char → List Char → List (List Char)
  | _, acc, [] => [acc.reverse]
  | 0, acc, l => [acc.reverse ++ l]
  | fuel + 1, acc, c :: cs =>
    if isPrefixChars (' ' :: '-' :: [' ']) (c :: cs) then
      acc.reverse :: splitGo fuel [] ((c :: cs).drop 3)
    else splitGo fuel (c :: acc) cs

/-- JS `exact.split(" - ")`. -/
def splitDash (l : List Char) : List (List Char) :=
  splitGo l.length [] l

/-- The canonical key part_001 `main` computes for an exact catalog key:
split on `" - "`, canonicalize the artist part and the rejoined title
part; `none` when the key has no `" - "` separator. -/
def canonOfExactKey (exact : String) : Option String :=
  match splitDash exact.data with
  | a :: b :: rest =>
    some (canon (String.mk a) ++ " - " ++
      canon (String.mk (List.intercalate (' ' :: '-' :: [' ']) (b :: rest))))
  | _ => none

/-- A catalog song record; the lookup logic only passes it through, so the
embedding keeps just its history array. -/
abbrev SongObj := List Appearance

/-- The exact lookup key part_001 `main` derives from a catalog song key:
`skey.toLowerCase().trim()`. -/
def exactKeyOf (kv : String × SongObj) : String :=
  String.mk (jsTrim (lowerChars kv.1.data))

/-- One iteration of the lookup-building loop of part_001 `main`: the
exact map takes every song; the canonical map takes a song only the first
time its canonical key appears and is poisoned with `null` on any further
appearance. -/
def lookupStep (acc : AMap SongObj × AMap (Option SongObj))
    (kv : String × SongObj) : AMap SongObj × AMap (Option SongObj) :=
  let exact := exactKeyOf kv
  let sl := amapSet acc.1 exact kv.2
  match canonOfExactKey exact with
  | some ck =>
    match amapGet acc.2 ck with
    | some _ => (sl, amapSet acc.2 ck none)
    | none => (sl, amapSet acc.2 ck (some kv.2))
  | none => (sl, acc.2)

/-- The lookup-building loop of part_001 `main`. -/
def buildLookups (catalogSongs : List (String × SongObj)) :
    AMap SongObj × AMap (Option SongObj) :=
  catalogSongs.foldl lookupStep ([], [])

/-- part_001 `findCatalogSong`: exact key first, then the canonical
fallback, which yields `null` both for a missing and for an ambiguous
canonical key. -/
def findCatalogSong (lookups : AMap SongObj × AMap (Option SongObj))
    (title artist : String) : Option SongObj :=
  let k := songKeyP1 title artist
  match amapGet lookups.1 k with
  | some hit => some hit
  | none =>
    match amapGet lookups.2 (canonKey title artist) with
    | some (some s) => some s
    | _ => none

/-- The whitespace state of the `collapseWs` scanner after consuming a
list (helper for reasoning about the scanner on appended lists). -/
def endWsFlag (f : Bool) (l : List Char) : Bool :=
  l.foldl (fun _ c => jsWs c) f

/- ===== lemmas: association maps ===== -/

def keysOf {β : Type} (m : AMap β) : List String := m.map Prod.fst

theorem keysOf_nil {β : Type} : keysOf ([] : AMap β) = [] := rfl

theorem keysOf_cons {β : Type} (k : String) (v : β) (m : AMap β) :
    keysOf ((k, v) :: m) = k :: keysOf m := rfl

theorem amapGet_amapSet {β : Type} (m : AMap β) (k : String) (v : β) (k' : String) :
    amapGet (amapSet m k v) k' = if k = k' then some v else amapGet m k' := by
  induction m with
  | nil => by_cases h : k = k' <;> simp [amapSet, amapGet, h]
  | cons hd tl ih =>
    obtain ⟨k0, v0⟩ := hd
    by_cases h0 : k0 = k
    · subst h0
      by_cases h1 : k0 = k' <;> simp [amapSet, amapGet, h1]
    · by_cases h1 : k0 = k'
      · subst h1
        have h2 : ¬ k = k0 := fun h => h0 h.symm
        simp [amapSet, amapGet, h0, h2]
      · simp [amapSet, amapGet, h0, h1, ih]

theorem amapGet_isSome_iff {β : Type} (m : AMap β) (k : String) :
    (amapGet m k).isSome = true ↔ k ∈ keysOf m := by
  induction m with
  | nil => simp [amapGet, keysOf]
  | cons hd tl ih =>
    obtain ⟨k0, v0⟩ := hd
    rw [keysOf_cons, List.mem_cons]
    by_cases h0 : k0 = k
    · simp [amapGet, h0]
    · have h1 : ¬ k = k0 := fun h => h0 h.symm
      simp [amapGet, h0, h1, ih]

theorem amapGet_eq_none_iff {β : Type} (m : AMap β) (k : String) :
    amapGet m k = none ↔ k ∉ keysOf m := by
  rw [← amapGet_isSome_iff]
  cases amapGet m k <;> simp

theorem keysOf_amapSet_mem {β : Type} (m : AMap β) (k : String) (v : β)
    (h : k ∈ keysOf m) : keysOf (amapSet m k v) = keysOf m := by
  induction m with
  | nil => simp [keysOf] at h
  | cons hd tl ih =>
    obtain ⟨k0, v0⟩ := hd
    by_cases h0 : k0 = k
    · simp [amapSet, h0, keysOf_cons]
    · rw [keysOf_cons, List.mem_cons] at h
      rcases h with h | h
      · exact absurd h.symm h0
      · simp only [amapSet, if_neg h0, keysOf_cons, ih h]

theorem keysOf_amapSet_not_mem {β : Type} (m : AMap β) (k : String) (v : β)
    (h : k ∉ keysOf m) : keysOf (amapSet m k v) = keysOf m ++ [k] := by
  induction m with
  | nil => simp [amapSet, keysOf]
  | cons hd tl ih =>
    obtain ⟨k0, v0⟩ := hd
    rw [keysOf_cons, List.mem_cons] at h
    push_neg at h
    have h0 : k0 ≠ k := fun he => h.1 he.symm
    simp only [amapSet, if_neg h0, keysOf_cons, ih h.2, List.cons_append]

theorem amapGet_mem {β : Type} (m : AMap β) (k : String) (v : β)
    (h : amapGet m k = some v) : (k, v) ∈ m := by
  induction m with
  | nil => simp [amapGet] at h
  | cons hd tl ih =>
    obtain ⟨k0, v0⟩ := hd
    by_cases h0 : k0 = k
    · subst h0
      simp [amapGet] at h
      simp [h]
    · simp only [amapGet, if_neg h0] at h
      simp [ih h]

theorem mem_amapGet {β : Type} (m : AMap β) (k : String) (v : β)
    (hnd : (keysOf m).Nodup) (h : (k, v) ∈ m) : amapGet m k = some v := by
  induction m with
  | nil => simp at h
  | cons hd tl ih =>
    obtain ⟨k0, v0⟩ := hd
    rw [keysOf_cons, List.nodup_cons] at hnd
    rcases List.mem_cons.mp h with h1 | h1
    · rw [Prod.mk.injEq] at h1
      simp [amapGet, h1.1, h1.2]
    · have hk : k ∈ keysOf tl := List.mem_map.mpr ⟨(k, v), h1, rfl⟩
      have h0 : k0 ≠ k := fun he => hnd.1 (he ▸ hk)
      simp only [amapGet, if_neg h0]
      exact ih hnd.2 h1

/- ===== lemmas: dedupHistory as an optional-minimum fold ===== -/

theorem omin_none_right (x : Option Int) : omin x none = x := by
  cases x <;> rfl

theorem omin_assoc (x y z : Option Int) : omin (omin x y) z = omin x (omin y z) := by
  cases x <;> cases y <;> cases z <;> simp [omin, min_assoc]

theorem listMinInt_foldl_factor (l : List Int) (o x : Option Int) :
    l.foldl (fun a r => omin a (some r)) (omin o x) =
      omin o (l.foldl (fun a r => omin a (some r)) x) := by
  induction l generalizing x with
  | nil => rfl
  | cons r t ih =>
    simp only [List.foldl_cons, omin_assoc]
    exact ih (omin x (some r))

theorem listMinInt_cons (r : Int) (l : List Int) :
    listMinInt (r :: l) = omin (some r) (listMinInt l) := by
  unfold listMinInt
  simp only [List.foldl_cons]
  have h1 : omin none (some r) = some r := rfl
  rw [h1]
  have h2 := listMinInt_foldl_factor l (some r) none
  rw [omin_none_right] at h2
  exact h2

theorem listMinInt_eq_none_iff (l : List Int) : listMinInt l = none ↔ l = [] := by
  cases l with
  | nil => simp [listMinInt]
  | cons r t =>
    rw [listMinInt_cons]
    cases listMinInt t <;> simp [omin]

theorem ranksAt_cons (a : Appearance) (t : List Appearance) (w : String) :
    ranksAt (a :: t) w =
      if a.week = w then a.rank :: ranksAt t w else ranksAt t w := by
  by_cases h : a.week = w <;> simp [ranksAt, List.filter_cons, h]

theorem amapGet_dedupInsert (m : AMap Int) (w : String) (r : Int) (w' : String) :
    amapGet (dedupInsert m w r) w' =
      if w = w' then omin (amapGet m w) (some r) else amapGet m w' := by
  unfold dedupInsert
  cases hg : amapGet m w <;> rw [amapGet_amapSet] <;>
    by_cases h : w = w' <;> simp [h, omin] <;> simp [← h, hg, omin]

theorem dedup_fold_get (h : List Appearance) (acc : AMap Int) (w : String) :
    amapGet (h.foldl (fun m a => dedupInsert m a.week a.rank) acc) w =
      omin (amapGet acc w) (listMinInt (ranksAt h w)) := by
  induction h generalizing acc with
  | nil => simp [ranksAt, listMinInt, omin_none_right]
  | cons a t ih =>
    simp only [List.foldl_cons]
    rw [ih, amapGet_dedupInsert, ranksAt_cons]
    by_cases hw : a.week = w
    · subst hw
      rw [if_pos rfl, if_pos rfl, listMinInt_cons, ← omin_assoc]
    · simp [hw]

theorem dedup_fold_keys_nodup (h : List Appearance) (acc : AMap Int)
    (hnd : (keysOf acc).Nodup) :
    (keysOf (h.foldl (fun m a => dedupInsert m a.week a.rank) acc)).Nodup := by
  induction h generalizing acc with
  | nil => exact hnd
  | cons a t ih =>
    simp only [List.foldl_cons]
    apply ih
    unfold dedupInsert
    cases hg : amapGet acc a.week
    · have hnm : a.week ∉ keysOf acc := (amapGet_eq_none_iff acc a.week).mp hg
      rw [keysOf_amapSet_not_mem acc a.week _ hnm]
      simp [List.nodup_append, hnd, hnm]
    · have hm : a.week ∈ keysOf acc := by
        rw [← amapGet_isSome_iff, hg]
        rfl
      rw [keysOf_amapSet_mem acc a.week _ hm]
      exact hnd

theorem dedupHistory_keys_nodup (h : List Appearance) :
    (keysOf (h.foldl (fun m a => dedupInsert m a.week a.rank) [])).Nodup :=
  dedup_fold_keys_nodup h [] (by simp [keysOf])

theorem mem_dedupHistory_iff (h : List Appearance) (a : Appearance) :
    a ∈ dedupHistory h ↔
      (a.week, a.rank) ∈ h.foldl (fun m a => dedupInsert m a.week a.rank) [] := by
  unfold dedupHistory
  rw [List.mem_map]
  constructor
  · rintro ⟨p, hp, hpa⟩
    have hpe : p = (a.week, a.rank) := by
      obtain ⟨w, r⟩ := p
      cases hpa
      rfl
    rwa [← hpe]
  · intro hm
    exact ⟨(a.week, a.rank), hm, rfl⟩

theorem listMinInt_spec (l : List Int) (m : Int) (h : listMinInt l = some m) :
    m ∈ l ∧ ∀ r ∈ l, m ≤ r := by
  induction l generalizing m with
  | nil => simp [listMinInt] at h
  | cons r t ih =>
    rw [listMinInt_cons] at h
    cases ht : listMinInt t with
    | none =>
      have hte : t = [] := (listMinInt_eq_none_iff t).mp ht
      subst hte
      rw [ht] at h
      simp [omin] at h
      subst h
      simp
    | some mt =>
      rw [ht] at h
      simp [omin] at h
      subst h
      obtain ⟨hmem, hmin⟩ := ih mt ht
      constructor
      · rcases le_or_lt r mt with hc | hc
        · simp [min_eq_left hc]
        · right
          rw [min_eq_right (le_of_lt hc)]
          exact hmem
      · intro x hx
        rcases List.mem_cons.mp hx with hx | hx
        · subst hx
          exact min_le_left _ _
        · exact le_trans (min_le_right _ _) (hmin x hx)

theorem listMinInt_isSome (l : List Int) (h : l ≠ []) :
    (listMinInt l).isSome = true := by
  cases l with
  | nil => exact absurd rfl h
  | cons r t =>
    rw [listMinInt_cons]
    cases listMinInt t <;> simp [omin]

/-- Weeks present in the de-duplicated history are exactly the weeks of
the raw history. -/
theorem dedup_week_mem_iff (h : List Appearance) (w : String) :
    (∃ a ∈ dedupHistory h, a.week = w) ↔ ∃ a ∈ h, a.week = w := by
  constructor
  · rintro ⟨a, ha, rfl⟩
    have hm := (mem_dedupHistory_iff h a).mp ha
    have hg := mem_amapGet _ _ _ (dedupHistory_keys_nodup h) hm
    rw [dedup_fold_get h [] a.week] at hg
    simp only [amapGet, omin] at hg
    obtain ⟨hmem, _⟩ := listMinInt_spec _ _ hg
    rcases List.mem_map.mp hmem with ⟨b, hb, hba⟩
    exact ⟨b, (List.mem_filter.mp hb).1,
      by simpa using (List.mem_filter.mp hb).2⟩
  · rintro ⟨a, ha, rfl⟩
    have hne : ranksAt h a.week ≠ [] := by
      simp only [ranksAt, ne_eq, List.map_eq_nil_iff, List.filter_eq_nil_iff]
      intro hno
      exact hno a ha (by simp)
    have hs := listMinInt_isSome _ hne
    cases hg : listMinInt (ranksAt h a.week) with
    | none => rw [hg] at hs; simp at hs
    | some r =>
      have hget : amapGet (h.foldl (fun m a => dedupInsert m a.week a.rank) [])
          a.week = some r := by
        rw [dedup_fold_get h [] a.week, hg]
        rfl
      have hmem := amapGet_mem _ _ _ hget
      exact ⟨⟨a.week, r⟩, (mem_dedupHistory_iff h ⟨a.week, r⟩).mpr hmem, rfl⟩

theorem dedup_week_mem (h : List Appearance) (a : Appearance)
    (ha : a ∈ dedupHistory h) : ∃ b ∈ h, b.week = a.week :=
  (dedup_week_mem_iff h a.week).mp ⟨a, ha, rfl⟩

/- ===== claim C1 ===== -/

theorem getPrevWeek_ne_empty (weeks : List String) (cw p : String)
    (hp : getPrevWeek weeks cw = some p) : ¬ p = "" := by
  unfold getPrevWeek at hp
  split at hp
  · exact absurd hp (by simp)
  · split at hp
    · exact absurd hp (by simp)
    · split at hp
      · exact absurd hp (by simp)
      · rename_i h3
        rw [Option.some_inj] at hp
        subst hp
        exact h3

/-- Claim C1: for every song history and target week, the immediate prior
week rank (`lastWeekRankImmediate` at the predecessor of the target week
in the published-week list, as computed by `getPrevWeek`) is present if
and only if the song has an appearance recorded for exactly that
predecessor week; an appearance at any earlier week alone does not make
it present. -/
theorem c1_immediate_prior_rank (h : List Appearance) (weeks : List String)
    (target p : String) (hp : getPrevWeek weeks target = some p) :
    (lastWeekRankImmediate (some h) (getPrevWeek weeks target)).isSome = true ↔
      ∃ a ∈ h, a.week = p := by
  rw [hp]
  have hne := getPrevWeek_ne_empty weeks target p hp
  unfold lastWeekRankImmediate
  simp only [hne, if_false]
  rw [← dedup_week_mem_iff]
  cases hf : (dedupHistory h).find? (fun a => decide (a.week = p)) with
  | none =>
    simp only [Option.isSome_none]
    constructor
    · intro hc
      exact absurd hc (by simp)
    · rintro ⟨a, ha, hwa⟩
      have hiff :=
        @List.find?_isSome _ (dedupHistory h) (fun a' => decide (a'.week = p))
      rw [hf] at hiff
      simp only [Option.isSome_none, Bool.false_eq_true, false_iff] at hiff
      push_neg at hiff
      exact absurd (by simpa using hwa) (by simpa using hiff a ha)
  | some hit =>
    simp only [Option.isSome_some, true_iff]
    have hmem := List.find?_some hf
    have hin := List.mem_of_find?_eq_some hf
    exact ⟨hit, hin, by simpa using hmem⟩

/-- Witness for C1 at the spec's Scenario B data: the song charted at
2024-01-15, the predecessor of 2024-01-22 in the manifest, so the
immediate prior rank is present. -/
theorem c1_witness :
    (lastWeekRankImmediate (some [⟨"2024-01-15", 7⟩])
      (getPrevWeek ["2024-01-22", "2024-01-15", "2024-01-08", "2024-01-01"]
        "2024-01-22")).isSome = true :=
  (c1_immediate_prior_rank [⟨"2024-01-15", 7⟩]
    ["2024-01-22", "2024-01-15", "2024-01-08", "2024-01-01"] "2024-01-22"
    "2024-01-15" (by decide)).mpr ⟨⟨"2024-01-15", 7⟩, by decide, rfl⟩

/- ===== lemmas: dedup commutes with week-predicate filtering ===== -/

theorem amapGet_nil {β : Type} (k : String) : amapGet ([] : AMap β) k = none := rfl

theorem amapGet_cons {β : Type} (k0 : String) (v0 : β) (m : AMap β) (k : String) :
    amapGet ((k0, v0) :: m) k = if k0 = k then some v0 else amapGet m k := rfl

theorem amapSet_nil {β : Type} (k : String) (v : β) :
    amapSet ([] : AMap β) k v = [(k, v)] := rfl

theorem amapSet_cons {β : Type} (k0 : String) (v0 : β) (m : AMap β) (k : String) (v : β) :
    amapSet ((k0, v0) :: m) k v =
      if k0 = k then (k0, v) :: m else (k0, v0) :: amapSet m k v := rfl

def filterKeys {β : Type} (p : String → Bool) (m : AMap β) : AMap β :=
  m.filter (fun kv => p kv.1)

theorem filterKeys_nil {β : Type} (p : String → Bool) :
    filterKeys p ([] : AMap β) = [] := rfl

theorem filterKeys_cons {β : Type} (p : String → Bool) (k : String) (v : β) (m : AMap β) :
    filterKeys p ((k, v) :: m) =
      if p k = true then (k, v) :: filterKeys p m else filterKeys p m := by
  simp only [filterKeys, List.filter_cons]

theorem amapGet_filterKeys_pos {β : Type} (p : String → Bool) (m : AMap β)
    (w : String) (hw : p w = true) : amapGet (filterKeys p m) w = amapGet m w := by
  induction m with
  | nil => rfl
  | cons hd tl ih =>
    obtain ⟨k0, v0⟩ := hd
    rw [filterKeys_cons]
    by_cases hp0 : p k0 = true
    · rw [if_pos hp0, amapGet_cons, amapGet_cons]
      by_cases h0 : k0 = w
      · rw [if_pos h0, if_pos h0]
      · rw [if_neg h0, if_neg h0, ih]
    · have h0 : k0 ≠ w := fun he => hp0 (he ▸ hw)
      rw [if_neg hp0, amapGet_cons, if_neg h0, ih]

theorem filterKeys_amapSet_pos {β : Type} (p : String → Bool) (m : AMap β)
    (w : String) (v : β) (hw : p w = true) :
    filterKeys p (amapSet m w v) = amapSet (filterKeys p m) w v := by
  induction m with
  | nil =>
    rw [amapSet_nil, filterKeys_nil, filterKeys_cons, if_pos hw, filterKeys_nil,
      amapSet_nil]
  | cons hd tl ih =>
    obtain ⟨k0, v0⟩ := hd
    by_cases h0 : k0 = w
    · subst h0
      rw [amapSet_cons, if_pos rfl, filterKeys_cons, if_pos hw, filterKeys_cons,
        if_pos hw, amapSet_cons, if_pos rfl]
    · rw [amapSet_cons, if_neg h0, filterKeys_cons, filterKeys_cons]
      by_cases hp0 : p k0 = true
      · rw [if_pos hp0, if_pos hp0, amapSet_cons, if_neg h0, ih]
      · rw [if_neg hp0, if_neg hp0, ih]

theorem filterKeys_amapSet_neg {β : Type} (p : String → Bool) (m : AMap β)
    (w : String) (v : β) (hw : p w = false) :
    filterKeys p (amapSet m w v) = filterKeys p m := by
  induction m with
  | nil =>
    rw [amapSet_nil, filterKeys_nil, filterKeys_cons, filterKeys_nil,
      if_neg (by simp [hw])]
  | cons hd tl ih =>
    obtain ⟨k0, v0⟩ := hd
    by_cases h0 : k0 = w
    · subst h0
      rw [amapSet_cons, if_pos rfl, filterKeys_cons, filterKeys_cons,
        if_neg (by simp [hw]), if_neg (by simp [hw])]
    · rw [amapSet_cons, if_neg h0, filterKeys_cons, filterKeys_cons]
      by_cases hp0 : p k0 = true
      · rw [if_pos hp0, if_pos hp0, ih]
      · rw [if_neg hp0, if_neg hp0, ih]

theorem filterKeys_dedupInsert_pos (p : String → Bool) (m : AMap Int)
    (w : String) (r : Int) (hw : p w = true) :
    filterKeys p (dedupInsert m w r) = dedupInsert (filterKeys p m) w r := by
  unfold dedupInsert
  rw [amapGet_filterKeys_pos p m w hw]
  cases amapGet m w <;> rw [filterKeys_amapSet_pos p m w _ hw]

theorem filterKeys_dedupInsert_neg (p : String → Bool) (m : AMap Int)
    (w : String) (r : Int) (hw : p w = false) :
    filterKeys p (dedupInsert m w r) = filterKeys p m := by
  unfold dedupInsert
  cases amapGet m w <;> rw [filterKeys_amapSet_neg p m w _ hw]

theorem dedup_fold_filter (p : String → Bool) (h : List Appearance) (acc : AMap Int) :
    (h.filter (fun a => p a.week)).foldl (fun m a => dedupInsert m a.week a.rank)
        (filterKeys p acc) =
      filterKeys p (h.foldl (fun m a => dedupInsert m a.week a.rank) acc) := by
  induction h generalizing acc with
  | nil => rfl
  | cons a t ih =>
    by_cases hw : p a.week = true
    · rw [List.filter_cons_of_pos (by simpa using hw)]
      simp only [List.foldl_cons]
      rw [← filterKeys_dedupInsert_pos p acc a.week a.rank hw]
      exact ih (dedupInsert acc a.week a.rank)
    · rw [List.filter_cons_of_neg (by simpa using hw)]
      simp only [List.foldl_cons]
      rw [← ih (dedupInsert acc a.week a.rank),
        filterKeys_dedupInsert_neg p acc a.week a.rank (by simpa using hw)]

theorem map_mk_filterKeys (p : String → Bool) (m : AMap Int) :
    (filterKeys p m).map (fun q => (⟨q.1, q.2⟩ : Appearance)) =
      (m.map (fun q => (⟨q.1, q.2⟩ : Appearance))).filter (fun a => p a.week) := by
  induction m with
  | nil => rfl
  | cons hd tl ih =>
    obtain ⟨k0, v0⟩ := hd
    rw [filterKeys_cons]
    by_cases hp0 : p k0 = true
    · rw [if_pos hp0]
      simp only [List.map_cons, List.filter_cons]
      rw [ih]
      simp [hp0]
    · rw [if_neg hp0]
      simp only [List.map_cons, List.filter_cons]
      rw [ih]
      simp only [show p (⟨k0, v0⟩ : Appearance).week = false by simpa using hp0,
        Bool.false_eq_true, if_false]

/-- De-duplication commutes with filtering by any predicate on the week. -/
theorem dedupHistory_filter (p : String → Bool) (h : List Appearance) :
    dedupHistory (h.filter (fun a => p a.week)) =
      (dedupHistory h).filter (fun a => p a.week) := by
  unfold dedupHistory
  have h0 : (filterKeys p ([] : AMap Int)) = [] := rfl
  rw [← h0, dedup_fold_filter p h []]
  exact map_mk_filterKeys p _

/- ===== claim C4 ===== -/

theorem statsAsOf_some (history : List Appearance) (weekStr : String) :
    statsAsOf (some history) weekStr =
      match (dedupHistory history).filter (fun h => strLe h.week weekStr) with
      | [] => ⟨none, some 0⟩
      | x :: xs =>
        ⟨some (xs.foldl (fun m a => min m a.rank) x.rank), some (xs.length + 1)⟩ := rfl

/-- Claim C4: as-of purity.  `statsAsOf` at target week `w1` is unchanged
when the history is restricted to the appearances at weeks `<= w1`;
appearances dated after the target week never influence the computed
statistics. -/
theorem c4_asof_purity (h : List Appearance) (w1 : String) :
    statsAsOf (some h) w1 =
      statsAsOf (some (h.filter (fun a => strLe a.week w1))) w1 := by
  rw [statsAsOf_some, statsAsOf_some,
    dedupHistory_filter (fun wk => strLe wk w1) h, List.filter_filter]
  simp only [Bool.and_self]

/- ===== claim C6 (corrected) ===== -/

/-- Counterexample to C6 as stated: a history whose only appearance is
after the target week.  `statsAsOf` does not return the code's absent
(no-data) record `{peak: null, weeks: null}`; it returns
`{peak: null, weeks: 0}`, a record with a present zero statistic. -/
theorem c6_counterexample :
    statsAsOf (some [⟨"2024-01-08", 5⟩]) "2024-01-01" = ⟨none, some 0⟩ ∧
      (⟨none, some 0⟩ : AsOfStats) ≠ ⟨none, none⟩ := by
  constructor
  · decide
  · decide

/-- Claim C6 as amended: when the song has no appearance at a week
`<= targetWeek`, `statsAsOf` returns an absent peak together with a
present weeks count of zero (`{peak: null, weeks: 0}`); the fully absent
record is produced only for a song object without a history array. -/
theorem c6_amended (h : List Appearance) (w : String)
    (hall : ∀ a ∈ h, strLe a.week w = false) :
    statsAsOf (some h) w = ⟨none, some 0⟩ := by
  rw [statsAsOf_some]
  have hnil : (dedupHistory h).filter (fun a => strLe a.week w) = [] := by
    rw [List.filter_eq_nil_iff]
    intro a ha
    obtain ⟨b, hb, hbw⟩ := dedup_week_mem h a ha
    simp [← hbw, hall b hb]
  rw [hnil]

/-- Witness for the amended C6. -/
theorem c6_witness :
    statsAsOf (some [⟨"2024-01-08", 5⟩, ⟨"2024-01-15", 3⟩]) "2024-01-01" =
      ⟨none, some 0⟩ :=
  c6_amended [⟨"2024-01-08", 5⟩, ⟨"2024-01-15", 3⟩] "2024-01-01" (by decide)

/- ===== claim C5 ===== -/

theorem amapSet_amapSet {β : Type} (m : AMap β) (k : String) (v v' : β) :
    amapSet (amapSet m k v) k v' = amapSet m k v' := by
  induction m with
  | nil => rw [amapSet_nil, amapSet_cons, if_pos rfl, amapSet_nil]
  | cons hd tl ih =>
    obtain ⟨k0, v0⟩ := hd
    by_cases h0 : k0 = k
    · rw [amapSet_cons, if_pos h0, amapSet_cons, if_pos h0, amapSet_cons, if_pos h0]
    · rw [amapSet_cons, if_neg h0, amapSet_cons, if_neg h0, amapSet_cons, if_neg h0, ih]

theorem amapGet_amapSet_self {β : Type} (m : AMap β) (k : String) (v : β) :
    amapGet (amapSet m k v) k = some v := by
  rw [amapGet_amapSet, if_pos rfl]

theorem dedupInsert_none (m : AMap Int) (w : String) (r : Int)
    (hg : amapGet m w = none) : dedupInsert m w r = amapSet m w r := by
  unfold dedupInsert
  rw [hg]

theorem dedupInsert_some (m : AMap Int) (w : String) (r r0 : Int)
    (hg : amapGet m w = some r0) : dedupInsert m w r = amapSet m w (min r0 r) := by
  unfold dedupInsert
  rw [hg]

theorem dedupInsert_idem (m : AMap Int) (w : String) (r : Int) :
    dedupInsert (dedupInsert m w r) w r = dedupInsert m w r := by
  cases hg : amapGet m w with
  | none =>
    rw [dedupInsert_none m w r hg,
      dedupInsert_some (amapSet m w r) w r r (amapGet_amapSet_self m w r),
      amapSet_amapSet, min_self]
  | some r0 =>
    rw [dedupInsert_some m w r r0 hg,
      dedupInsert_some _ w r (min r0 r) (amapGet_amapSet_self m w (min r0 r)),
      amapSet_amapSet, min_assoc, min_self]

theorem dedupHistory_pairwise (h : List Appearance) :
    (dedupHistory h).Pairwise (fun a b => a.week ≠ b.week) := by
  have hnd := dedupHistory_keys_nodup h
  unfold keysOf at hnd
  rw [List.Nodup, List.pairwise_map] at hnd
  unfold dedupHistory
  rw [List.pairwise_map]
  exact hnd

theorem dedupHistory_min_rank (h : List Appearance) (a : Appearance)
    (ha : a ∈ dedupHistory h) :
    a.rank ∈ ranksAt h a.week ∧ ∀ r ∈ ranksAt h a.week, a.rank ≤ r := by
  have hm := (mem_dedupHistory_iff h a).mp ha
  have hg := mem_amapGet _ _ _ (dedupHistory_keys_nodup h) hm
  rw [dedup_fold_get h [] a.week] at hg
  simp only [amapGet, omin] at hg
  exact listMinInt_spec _ _ hg

theorem dedupHistory_map_week (h : List Appearance) :
    (dedupHistory h).map (fun a => a.week) =
      keysOf (h.foldl (fun m a => dedupInsert m a.week a.rank) []) := by
  unfold dedupHistory keysOf
  rw [List.map_map]
  rfl

theorem dedupHistory_length_eq_dedup (h : List Appearance) :
    (dedupHistory h).length = ((h.map (fun a => a.week)).dedup).length := by
  have h1 : ((dedupHistory h).map (fun a => a.week)).Nodup := by
    rw [dedupHistory_map_week]
    exact dedupHistory_keys_nodup h
  have h2 : ((h.map (fun a => a.week)).dedup).Nodup := List.nodup_dedup _
  have h3 : ∀ w, w ∈ (dedupHistory h).map (fun a => a.week) ↔
      w ∈ (h.map (fun a => a.week)).dedup := by
    intro w
    rw [List.mem_dedup, List.mem_map, List.mem_map]
    constructor
    · rintro ⟨a, ha, rfl⟩
      obtain ⟨b, hb, hbw⟩ := (dedup_week_mem_iff h a.week).mp ⟨a, ha, rfl⟩
      exact ⟨b, hb, hbw⟩
    · rintro ⟨a, ha, rfl⟩
      obtain ⟨b, hb, hbw⟩ := (dedup_week_mem_iff h a.week).mpr ⟨a, ha, rfl⟩
      exact ⟨b, hb, hbw⟩
  have hperm := (List.perm_ext_iff_of_nodup h1 h2).mpr h3
  have := hperm.length_eq
  rwa [List.length_map] at this

theorem statsAsOf_weeks_len (h : List Appearance) (w : String) :
    (statsAsOf (some h) w).weeks =
      some ((dedupHistory h).filter (fun a => strLe a.week w)).length := by
  rw [statsAsOf_some]
  cases hf : (dedupHistory h).filter (fun a => strLe a.week w) with
  | nil => simp
  | cons x xs => simp

/-- Claim C5: de-duplication invariant of the history index.
(1) The de-duplicated history has at most one appearance per week;
(2) the kept rank for a week is one of the raw ranks for that week and is
the numerically lowest of them;
(3) a week is present after de-duplication exactly when it is present in
the raw history;
(4) ingesting the same `(week, rank)` appearance twice yields the same
record as ingesting it once;
(5) the weeks-charted count of `statsAsOf` counts de-duplicated
appearances: the number of distinct weeks `<= target` in the history. -/
theorem c5_dedup_invariant :
    (∀ h : List Appearance, (dedupHistory h).Pairwise (fun a b => a.week ≠ b.week)) ∧
    (∀ h : List Appearance, ∀ a ∈ dedupHistory h,
      a.rank ∈ ranksAt h a.week ∧ ∀ r ∈ ranksAt h a.week, a.rank ≤ r) ∧
    (∀ (h : List Appearance) (w : String),
      (∃ a ∈ h, a.week = w) ↔ ∃ a ∈ dedupHistory h, a.week = w) ∧
    (∀ (l1 l2 : List Appearance) (t : Appearance),
      dedupHistory (l1 ++ t :: t :: l2) = dedupHistory (l1 ++ t :: l2)) ∧
    (∀ (h : List Appearance) (w : String),
      (statsAsOf (some h) w).weeks =
        some (((h.filter (fun a => strLe a.week w)).map (fun a => a.week)).dedup.length)) := by
  refine ⟨dedupHistory_pairwise, dedupHistory_min_rank, ?_, ?_, ?_⟩
  · intro h w
    exact (dedup_week_mem_iff h w).symm
  · intro l1 l2 t
    unfold dedupHistory
    rw [List.foldl_append, List.foldl_append]
    simp only [List.foldl_cons]
    rw [dedupInsert_idem]
  · intro h w
    rw [statsAsOf_weeks_len, ← dedupHistory_filter (fun wk => strLe wk w) h,
      dedupHistory_length_eq_dedup]

/-- Witness for C5 at the spec's Scenario D data: duplicate 2024-01-08
appearances collapse, and the weeks count sees one distinct week. -/
theorem c5_witness :
    dedupHistory ([⟨"2024-01-08", 12⟩] ++ ⟨"2024-01-08", 9⟩ :: ⟨"2024-01-08", 9⟩ :: []) =
      dedupHistory ([⟨"2024-01-08", 12⟩] ++ ⟨"2024-01-08", 9⟩ :: []) ∧
    (statsAsOf (some [⟨"2024-01-08", 12⟩, ⟨"2024-01-08", 9⟩]) "2024-01-08").weeks =
      some ((([⟨"2024-01-08", 12⟩, ⟨"2024-01-08", 9⟩] : List Appearance).filter
        (fun a => strLe a.week "2024-01-08")).map (fun a => a.week)).dedup.length :=
  ⟨c5_dedup_invariant.2.2.2.1 _ _ _, c5_dedup_invariant.2.2.2.2 _ _⟩

/- ===== claims C2 and C3 ===== -/

theorem deriveEntryForWeek_movement (raw : RawEntry) (tw : String) (pwr : AMap Int)
    (ss : AMap SeenStat) (hm : AMap (List Appearance)) (ipw web : Bool) :
    (deriveEntryForWeek raw tw pwr ss hm ipw web).movement =
      deriveMovement web ipw
        (amapGet pwr (songKeyChart (cleanTitle raw.title) (cleanArtistName raw.artist)))
        raw.rank := rfl

theorem deriveEntryForWeek_lastWeek (raw : RawEntry) (tw : String) (pwr : AMap Int)
    (ss : AMap SeenStat) (hm : AMap (List Appearance)) (ipw web : Bool) :
    (deriveEntryForWeek raw tw pwr ss hm ipw web).lastWeek =
      if (deriveEntryForWeek raw tw pwr ss hm ipw web).movement.type = MovType.new ∨
          (deriveEntryForWeek raw tw pwr ss hm ipw web).movement.type = MovType.re then
        none
      else
        amapGet pwr (songKeyChart (cleanTitle raw.title) (cleanArtistName raw.artist)) :=
  rfl

/-- Claim C2: NEW/RE dash invariant.  Whenever the movement computed by
`deriveEntryForWeek` is NEW or RE, the last-week value carried in the
produced view entry is the absent sentinel `none`, whatever ranks the
previous-week map or the song's history contain. -/
theorem c2_new_re_dash (raw : RawEntry) (tw : String) (pwr : AMap Int)
    (ss : AMap SeenStat) (hm : AMap (List Appearance)) (ipw web : Bool)
    (hmv : (deriveEntryForWeek raw tw pwr ss hm ipw web).movement.type = MovType.new ∨
      (deriveEntryForWeek raw tw pwr ss hm ipw web).movement.type = MovType.re) :
    (deriveEntryForWeek raw tw pwr ss hm ipw web).lastWeek = none := by
  rw [deriveEntryForWeek_lastWeek, if_pos hmv]

/-- Witness for C2: a NEW entry whose key does appear in the previous-week
rank map with a stale rank 3; the displayed last week is still `none`. -/
theorem c2_witness :
    (deriveEntryForWeek ⟨"Song", "Artist", some 5⟩ "2024-01-08"
      [("artist — song", 3)] [] [] false false).lastWeek = none :=
  c2_new_re_dash ⟨"Song", "Artist", some 5⟩ "2024-01-08" [("artist — song", 3)]
    [] [] false false (Or.inl (by decide))

/-- Claim C3: the movement classifier of `deriveEntryForWeek` follows
exactly the NEW / RE / UP / DOWN / SAME rules: NEW when the song never
charted strictly before the target week, RE when it charted before but is
not on the immediately preceding published chart, and otherwise
`delta = immediatePriorRank - currentRank` with `delta > 0` giving
UP(delta), `delta < 0` giving DOWN(|delta|) and `delta = 0` giving SAME.
The hypothesis ties the previous-week flag to the previous-week rank, as
holds for well-formed chart data. -/
theorem c3_movement_rules (web ipw : Bool) (lwr : Option Int) (r lw : Int)
    (hcons : ipw = true → lwr = some lw) :
    (web = false → deriveMovement web ipw lwr (some r) = ⟨MovType.new, none⟩) ∧
    (web = true → ipw = false →
      deriveMovement web ipw lwr (some r) = ⟨MovType.re, none⟩) ∧
    (web = true → ipw = true →
      ((0 < lw - r →
          deriveMovement web ipw lwr (some r) = ⟨MovType.up, some (lw - r)⟩) ∧
       (lw - r < 0 →
          deriveMovement web ipw lwr (some r) = ⟨MovType.down, some (r - lw)⟩) ∧
       (lw - r = 0 →
          deriveMovement web ipw lwr (some r) = ⟨MovType.same, some 0⟩))) := by
  refine ⟨?_, ?_, ?_⟩
  · intro hw
    subst hw
    rfl
  · intro hw hi
    subst hw
    subst hi
    rfl
  · intro hw hi
    subst hw
    subst hi
    have hl := hcons rfl
    subst hl
    have hd : deriveMovement true true (some lw) (some r) =
        (if 0 < lw - r then (⟨MovType.up, some (lw - r)⟩ : Movement)
         else if lw - r < 0 then ⟨MovType.down, some (jsAbs (lw - r))⟩
         else ⟨MovType.same, some 0⟩) := rfl
    refine ⟨?_, ?_, ?_⟩
    · intro hpos
      rw [hd, if_pos hpos]
    · intro hneg
      rw [hd, if_neg (by omega), if_pos hneg]
      unfold jsAbs
      rw [if_pos hneg, neg_sub]
    · intro hz
      rw [hd, if_neg (by omega), if_neg (by omega)]

/-- Witness for C3: the spec's Scenario A step (last week 10, current
rank 5 gives UP(5)) together with the NEW rule. -/
theorem c3_witness :
    deriveMovement true true (some 10) (some 5) = ⟨MovType.up, some 5⟩ ∧
    deriveMovement false false none (some 1) = ⟨MovType.new, none⟩ := by
  constructor
  · have h := ((c3_movement_rules true true (some 10) 5 10 (fun _ => rfl)).2.2
      rfl rfl).1 (by decide)
    have h3 : (10 : Int) - 5 = 5 := by decide
    rwa [h3] at h
  · exact (c3_movement_rules false false none 1 0 (fun h => Bool.noConfusion h)).1 rfl

/- ===== claim C8 ===== -/

theorem jsLtOpt_self (a : Option Int) : jsLtOpt a a = false := by
  cases a <;> simp [jsLtOpt]

theorem jsLtOpt_trans (a b c : Option Int) (h1 : jsLtOpt a b = true)
    (h2 : jsLtOpt b c = true) : jsLtOpt a c = true := by
  cases a <;> cases b <;> cases c <;> simp [jsLtOpt] at * <;> omega

theorem isUpCand_val (e : DerivedEntry) (h : isUpCand e = true) :
    e.movement.type = MovType.up ∧ ∃ v, e.movement.value = some v := by
  unfold isUpCand at h
  rw [Bool.and_eq_true, decide_eq_true_iff] at h
  exact ⟨h.1, Option.isSome_iff_exists.mp h.2⟩

theorem jDelta_eq (e : DerivedEntry) (v : Int) (hv : e.movement.value = some v) :
    jDelta e = jsAbs v := by
  unfold jDelta
  rw [hv]
  rfl

theorem jumpUpdate_not_up (acc : Option JumpCand) (e : DerivedEntry)
    (h : isUpCand e = false) : jumpUpdate acc e = acc := by
  unfold jumpUpdate
  unfold isUpCand at h
  by_cases ht : e.movement.type = MovType.up
  · rw [if_pos ht]
    have hv : e.movement.value.isSome = false := by
      rw [ht] at h
      simpa using h
    cases hvv : e.movement.value
    · rfl
    · rw [hvv] at hv
      simp at hv
  · rw [if_neg ht]

theorem jumpUpdate_none_up (e : DerivedEntry) (v : Int)
    (ht : e.movement.type = MovType.up) (hv : e.movement.value = some v) :
    jumpUpdate none e = some ⟨e.key, jDelta e, e.rank⟩ := by
  unfold jumpUpdate
  rw [if_pos ht, hv, jDelta_eq e v hv]

theorem not_beatsJump_self (e : DerivedEntry) :
    ¬ beatsJump e ⟨e.key, jDelta e, e.rank⟩ := by
  unfold beatsJump
  simp only
  rintro (h | ⟨h1, h2⟩)
  · omega
  · rw [jsLtOpt_self] at h2
    exact Bool.noConfusion h2

theorem beatsJump_chain (e x : DerivedEntry) (b : JumpCand)
    (h1 : beatsJump e ⟨x.key, jDelta x, x.rank⟩) (h2 : beatsJump x b) :
    beatsJump e b := by
  unfold beatsJump at *
  simp only at h1
  rcases h1 with h1 | ⟨h1a, h1b⟩ <;> rcases h2 with h2 | ⟨h2a, h2b⟩
  · exact Or.inl (by omega)
  · exact Or.inl (by omega)
  · exact Or.inl (by omega)
  · exact Or.inr ⟨by omega, jsLtOpt_trans _ _ _ h1b h2b⟩

theorem jumpUpdate_some_up (e : DerivedEntry) (v : Int) (b : JumpCand)
    (ht : e.movement.type = MovType.up) (hv : e.movement.value = some v) :
    (beatsJump e b → jumpUpdate (some b) e = some ⟨e.key, jDelta e, e.rank⟩) ∧
    (¬ beatsJump e b → jumpUpdate (some b) e = some b) := by
  have hiff : ∀ hc : Bool,
      hc = (decide (jsAbs v > b.delta) || (jsAbs v == b.delta && jsLtOpt e.rank b.rank)) →
      (hc = true ↔ beatsJump e b) := by
    intro hc hceq
    subst hceq
    unfold beatsJump
    rw [jDelta_eq e v hv]
    simp [Bool.or_eq_true, Bool.and_eq_true, beq_iff_eq, decide_eq_true_iff, gt_iff_lt]
  constructor
  · intro hb
    unfold jumpUpdate
    rw [if_pos ht, hv]
    simp only
    split
    · rw [jDelta_eq e v hv]
    · rename_i hc
      exact absurd ((hiff _ rfl).mpr hb) hc
  · intro hb
    unfold jumpUpdate
    rw [if_pos ht, hv]
    simp only
    split
    · rename_i hc
      exact absurd ((hiff _ rfl).mp hc) hb
    · rfl

theorem awardsScan_bestJump (l : List DerivedEntry) :
    computeBestJump l = l.foldl jumpUpdate none := by
  have hgen : ∀ s : AwardsState,
      (l.foldl awardsStep s).bestJump = l.foldl jumpUpdate s.bestJump := by
    induction l with
    | nil => intro s; rfl
    | cons x t ih =>
      intro s
      simp only [List.foldl_cons]
      rw [ih (awardsStep s x)]
      rfl
  exact hgen _

theorem jump_fold_inv (l : List DerivedEntry) (S : DerivedEntry → Prop)
    (acc : Option JumpCand)
    (h1 : acc = none → ∀ e, S e → isUpCand e = false)
    (h2 : ∀ b, acc = some b →
      ∃ e, S e ∧ isUpCand e = true ∧ b = ⟨e.key, jDelta e, e.rank⟩)
    (h3 : ∀ b, acc = some b → ∀ e, S e → isUpCand e = true → ¬ beatsJump e b) :
    (l.foldl jumpUpdate acc = none → ∀ e, S e ∨ e ∈ l → isUpCand e = false) ∧
    (∀ b, l.foldl jumpUpdate acc = some b →
      ∃ e, (S e ∨ e ∈ l) ∧ isUpCand e = true ∧ b = ⟨e.key, jDelta e, e.rank⟩) ∧
    (∀ b, l.foldl jumpUpdate acc = some b →
      ∀ e, (S e ∨ e ∈ l) → isUpCand e = true → ¬ beatsJump e b) := by
  induction l generalizing S acc with
  | nil =>
    refine ⟨?_, ?_, ?_⟩
    · intro hn e he
      rcases he with he | he
      · exact h1 hn e he
      · simp at he
    · intro b hb
      obtain ⟨e, hse, hup, hbe⟩ := h2 b hb
      exact ⟨e, Or.inl hse, hup, hbe⟩
    · intro b hb e he hup
      rcases he with he | he
      · exact h3 b hb e he hup
      · simp at he
  | cons x t ih =>
    have step1 : jumpUpdate acc x = none →
        ∀ e, (S e ∨ e = x) → isUpCand e = false := by
      intro hn e he
      cases hup : isUpCand x with
      | false =>
        rw [jumpUpdate_not_up acc x hup] at hn
        rcases he with he | he
        · exact h1 hn e he
        · rw [he]
          exact hup
      | true =>
        obtain ⟨ht, v, hv⟩ := isUpCand_val x hup
        exfalso
        cases hacc : acc with
        | none =>
          rw [hacc, jumpUpdate_none_up x v ht hv] at hn
          exact Option.noConfusion hn
        | some b0 =>
          have hj := jumpUpdate_some_up x v b0 ht hv
          by_cases hbB : beatsJump x b0
          · rw [hacc, hj.1 hbB] at hn
            exact Option.noConfusion hn
          · rw [hacc, hj.2 hbB] at hn
            exact Option.noConfusion hn
    have step2 : ∀ b, jumpUpdate acc x = some b →
        ∃ e, (S e ∨ e = x) ∧ isUpCand e = true ∧ b = ⟨e.key, jDelta e, e.rank⟩ := by
      intro b hb
      cases hup : isUpCand x with
      | false =>
        rw [jumpUpdate_not_up acc x hup] at hb
        obtain ⟨e, hse, h4, h5⟩ := h2 b hb
        exact ⟨e, Or.inl hse, h4, h5⟩
      | true =>
        obtain ⟨ht, v, hv⟩ := isUpCand_val x hup
        cases hacc : acc with
        | none =>
          rw [hacc, jumpUpdate_none_up x v ht hv] at hb
          exact ⟨x, Or.inr rfl, hup, (Option.some_inj.mp hb).symm⟩
        | some b0 =>
          have hj := jumpUpdate_some_up x v b0 ht hv
          by_cases hbB : beatsJump x b0
          · rw [hacc, hj.1 hbB] at hb
            exact ⟨x, Or.inr rfl, hup, (Option.some_inj.mp hb).symm⟩
          · rw [hacc, hj.2 hbB] at hb
            obtain ⟨e, hse, h4, h5⟩ := h2 b0 hacc
            cases hb
            exact ⟨e, Or.inl hse, h4, h5⟩
    have step3 : ∀ b, jumpUpdate acc x = some b →
        ∀ e, (S e ∨ e = x) → isUpCand e = true → ¬ beatsJump e b := by
      intro b hb e he hup
      cases hupx : isUpCand x with
      | false =>
        rw [jumpUpdate_not_up acc x hupx] at hb
        rcases he with he | he
        · exact h3 b hb e he hup
        · rw [he] at hup
          rw [hup] at hupx
          exact Bool.noConfusion hupx
      | true =>
        obtain ⟨ht, v, hv⟩ := isUpCand_val x hupx
        cases hacc : acc with
        | none =>
          rw [hacc, jumpUpdate_none_up x v ht hv] at hb
          have hbx : b = ⟨x.key, jDelta x, x.rank⟩ := (Option.some_inj.mp hb).symm
          rcases he with he | he
          · have := h1 hacc e he
            rw [hup] at this
            exact absurd this (by simp)
          · rw [he, hbx]
            exact not_beatsJump_self x
        | some b0 =>
          have hj := jumpUpdate_some_up x v b0 ht hv
          by_cases hbB : beatsJump x b0
          · rw [hacc, hj.1 hbB] at hb
            have hbx : b = ⟨x.key, jDelta x, x.rank⟩ := (Option.some_inj.mp hb).symm
            rcases he with he | he
            · intro hbe
              rw [hbx] at hbe
              exact h3 b0 hacc e he hup (beatsJump_chain e x b0 hbe hbB)
            · rw [he, hbx]
              exact not_beatsJump_self x
          · rw [hacc, hj.2 hbB] at hb
            have hbb : b0 = b := Option.some_inj.mp hb
            rcases he with he | he
            · rw [← hbb]
              exact h3 b0 hacc e he hup
            · rw [he, ← hbb]
              exact hbB
    have hrec := ih (fun e => S e ∨ e = x) (jumpUpdate acc x) step1 step2 step3
    refine ⟨?_, ?_, ?_⟩
    · intro hn e he
      apply hrec.1 hn e
      rcases he with he | he
      · exact Or.inl (Or.inl he)
      · rcases List.mem_cons.mp he with he | he
        · exact Or.inl (Or.inr he)
        · exact Or.inr he
    · intro b hb
      obtain ⟨e, hse, h4, h5⟩ := hrec.2.1 b hb
      refine ⟨e, ?_, h4, h5⟩
      rcases hse with (hse | hse) | hse
      · exact Or.inl hse
      · exact Or.inr (by rw [hse]; exact List.mem_cons_self x t)
      · exact Or.inr (List.mem_cons_of_mem x hse)
    · intro b hb e he hup
      apply hrec.2.2 b hb e _ hup
      rcases he with he | he
      · exact Or.inl (Or.inl he)
      · rcases List.mem_cons.mp he with he | he
        · exact Or.inl (Or.inr he)
        · exact Or.inr he

theorem mem_awardAdd_self (m : AMap (List Award)) (k : String) (a : Award) :
    a ∈ (amapGet (awardAdd m k a) k).getD [] := by
  unfold awardAdd
  rw [amapGet_amapSet_self]
  simp

theorem mem_awardAdd_mono (m : AMap (List Award)) (k2 : String) (aw : Award)
    (k : String) (a : Award) (h : a ∈ (amapGet m k).getD []) :
    a ∈ (amapGet (awardAdd m k2 aw) k).getD [] := by
  unfold awardAdd
  by_cases hk : k2 = k
  · subst hk
    rw [amapGet_amapSet_self]
    simpa using Or.inl h
  · rw [amapGet_amapSet, if_neg hk]
    exact h

theorem mem_awardAdd_cases (m : AMap (List Award)) (k2 : String) (aw : Award)
    (k : String) (a : Award) (h : a ∈ (amapGet (awardAdd m k2 aw) k).getD []) :
    a ∈ (amapGet m k).getD [] ∨ a = aw := by
  unfold awardAdd at h
  by_cases hk : k2 = k
  · subst hk
    rw [amapGet_amapSet_self] at h
    simpa using h
  · rw [amapGet_amapSet, if_neg hk] at h
    exact Or.inl h

theorem mem_awardStage_mono {γ : Type} (m : AMap (List Award)) (o : Option γ)
    (keyf : γ → String) (aw : γ → Award) (k : String) (a : Award)
    (h : a ∈ (amapGet m k).getD []) :
    a ∈ (amapGet (awardStage m o keyf aw) k).getD [] := by
  cases o with
  | none => exact h
  | some b => exact mem_awardAdd_mono m (keyf b) (aw b) k a h

theorem mem_awardStage_cases {γ : Type} (m : AMap (List Award)) (o : Option γ)
    (keyf : γ → String) (aw : γ → Award) (k : String) (a : Award)
    (h : a ∈ (amapGet (awardStage m o keyf aw) k).getD []) :
    a ∈ (amapGet m k).getD [] ∨ ∃ b, a = aw b := by
  cases o with
  | none => exact Or.inl h
  | some b =>
    rcases mem_awardAdd_cases m (keyf b) (aw b) k a h with h | h
    · exact Or.inl h
    · exact Or.inr ⟨b, h⟩

/-- Claim C8: Biggest Jump selection.  (1) The selection is empty exactly
when no entry has an UP movement with a numeric value; (2) the selected
winner is one of the UP entries, and every UP entry either has a strictly
smaller delta or ties the delta without having a strictly lower current
rank; (3) with no UP entry, no award with the Biggest Jump colour appears
anywhere in the computed awards map; (4) with a winner, the Biggest Jump
award is in the winner's award list. -/
theorem c8_biggest_jump (entries : List DerivedEntry) :
    (computeBestJump entries = none ↔ ∀ e ∈ entries, isUpCand e = false) ∧
    (∀ b, computeBestJump entries = some b →
      (∃ e ∈ entries, isUpCand e = true ∧ b = ⟨e.key, jDelta e, e.rank⟩) ∧
      ∀ e ∈ entries, isUpCand e = true →
        jDelta e < b.delta ∨ (jDelta e = b.delta ∧ jsLtOpt e.rank b.rank = false)) ∧
    ((∀ e ∈ entries, isUpCand e = false) →
      ∀ k, ∀ a ∈ (amapGet (computeAwardsForWeek entries) k).getD [],
        a.color ≠ "#7cffb2") ∧
    (∀ b, computeBestJump entries = some b →
      (⟨"Biggest Jump (+" ++ toString b.delta ++ ")", "#7cffb2"⟩ : Award) ∈
        (amapGet (computeAwardsForWeek entries) b.key).getD []) := by
  have hinv := jump_fold_inv entries (fun _ => False) none
    (fun _ e fe => absurd fe not_false)
    (fun b hb => Option.noConfusion hb)
    (fun b hb => Option.noConfusion hb)
  rw [← awardsScan_bestJump entries] at hinv
  have hiff : computeBestJump entries = none ↔ ∀ e ∈ entries, isUpCand e = false := by
    constructor
    · intro hn e he
      exact hinv.1 hn e (Or.inr he)
    · intro hall
      cases hc : computeBestJump entries with
      | none => rfl
      | some b =>
        obtain ⟨e, hse, hup, _⟩ := hinv.2.1 b hc
        rcases hse with hse | hse
        · exact absurd hse not_false
        · rw [hall e hse] at hup
          exact Bool.noConfusion hup
  refine ⟨hiff, ?_, ?_, ?_⟩
  · intro b hb
    constructor
    · obtain ⟨e, hse, hup, hbe⟩ := hinv.2.1 b hb
      rcases hse with hse | hse
      · exact absurd hse not_false
      · exact ⟨e, hse, hup, hbe⟩
    · intro e he hup
      have hnb := hinv.2.2 b hb e (Or.inr he) hup
      unfold beatsJump at hnb
      push_neg at hnb
      rcases lt_or_eq_of_le hnb.1 with hlt | heq
      · exact Or.inl hlt
      · refine Or.inr ⟨heq, ?_⟩
        have := hnb.2 heq
        exact Bool.not_eq_true _ |>.mp this
  · intro hall k a ha
    have hnone : computeBestJump entries = none := hiff.mpr hall
    unfold computeBestJump at hnone
    simp only [computeAwardsForWeek] at ha
    rw [hnone] at ha
    rcases mem_awardStage_cases _ _ _ _ _ _ ha with ha | ⟨b, rfl⟩
    · rcases mem_awardStage_cases _ _ _ _ _ _ ha with ha | ⟨b, rfl⟩
      · rcases mem_awardStage_cases _ _ _ _ _ _ ha with ha | ⟨b, rfl⟩
        · rcases mem_awardStage_cases _ _ _ _ _ _ ha with ha | ⟨b, rfl⟩
          · simp only [awardStage] at ha
            simp [amapGet] at ha
          · exact (by decide : ("#ff7c7c" : String) ≠ "#7cffb2")
        · exact (by decide : ("#7cc7ff" : String) ≠ "#7cffb2")
      · exact (by decide : ("#b38cff" : String) ≠ "#7cffb2")
    · exact (by decide : ("#ffd37c" : String) ≠ "#7cffb2")
  · intro b hb
    unfold computeBestJump at hb
    simp only [computeAwardsForWeek]
    rw [hb]
    apply mem_awardStage_mono
    apply mem_awardStage_mono
    apply mem_awardStage_mono
    apply mem_awardStage_mono
    exact mem_awardAdd_self _ _ _

/-- Witness for C8 at the spec's Scenario E shape: the UP(10) entry at
rank 3 beats the UP(4) entry at rank 1, and its Biggest Jump award is in
the computed map. -/
theorem c8_witness :
    (⟨"Biggest Jump (+" ++ toString (10 : Int) ++ ")", "#7cffb2"⟩ : Award) ∈
      (amapGet (computeAwardsForWeek
        [⟨some 3, "T1", "A1", ⟨MovType.up, some 10⟩, some 13, some 1, some 4,
           none, none, [], "k1"⟩,
         ⟨some 1, "T2", "A2", ⟨MovType.up, some 4⟩, some 5, some 1, some 6,
           none, none, [], "k2"⟩,
         ⟨some 2, "T3", "A3", ⟨MovType.new, none⟩, none, some 2, some 1,
           none, none, [], "k3"⟩]) "k1").getD [] :=
  (c8_biggest_jump
    [⟨some 3, "T1", "A1", ⟨MovType.up, some 10⟩, some 13, some 1, some 4,
       none, none, [], "k1"⟩,
     ⟨some 1, "T2", "A2", ⟨MovType.up, some 4⟩, some 5, some 1, some 6,
       none, none, [], "k2"⟩,
     ⟨some 2, "T3", "A3", ⟨MovType.new, none⟩, none, some 2, some 1,
       none, none, [], "k3"⟩]).2.2.2 ⟨"k1", 10, some 3⟩ (by decide)

/- ===== claim C7 ===== -/

theorem lookupStep_fst (acc : AMap SongObj × AMap (Option SongObj))
    (kv : String × SongObj) :
    (lookupStep acc kv).1 = amapSet acc.1 (exactKeyOf kv) kv.2 := by
  rcases hc : canonOfExactKey (exactKeyOf kv) with _ | ck
  · simp only [lookupStep, hc]
  · rcases hg : amapGet acc.2 ck with _ | v <;> simp only [lookupStep, hc, hg]

theorem lookupStep_snd_none (acc : AMap SongObj × AMap (Option SongObj))
    (kv : String × SongObj) (hc : canonOfExactKey (exactKeyOf kv) = none) :
    (lookupStep acc kv).2 = acc.2 := by
  simp only [lookupStep, hc]

theorem lookupStep_snd_poison (acc : AMap SongObj × AMap (Option SongObj))
    (kv : String × SongObj) (ck : String) (v : Option SongObj)
    (hc : canonOfExactKey (exactKeyOf kv) = some ck)
    (hg : amapGet acc.2 ck = some v) :
    (lookupStep acc kv).2 = amapSet acc.2 ck none := by
  simp only [lookupStep, hc, hg]

theorem lookupStep_snd_fresh (acc : AMap SongObj × AMap (Option SongObj))
    (kv : String × SongObj) (ck : String)
    (hc : canonOfExactKey (exactKeyOf kv) = some ck)
    (hg : amapGet acc.2 ck = none) :
    (lookupStep acc kv).2 = amapSet acc.2 ck (some kv.2) := by
  simp only [lookupStep, hc, hg]

theorem lookup_fold_fst (l : List (String × SongObj))
    (acc : AMap SongObj × AMap (Option SongObj)) (k : String)
    (h : k ∉ l.map exactKeyOf) :
    amapGet (l.foldl lookupStep acc).1 k = amapGet acc.1 k := by
  induction l generalizing acc with
  | nil => rfl
  | cons x t ih =>
    rw [List.map_cons, List.mem_cons] at h
    push_neg at h
    obtain ⟨hx, ht⟩ := h
    simp only [List.foldl_cons]
    rw [ih _ ht, lookupStep_fst, amapGet_amapSet,
      if_neg (fun he => hx he.symm)]

theorem lookup_fold_stick (ck : String) (l : List (String × SongObj))
    (acc : AMap SongObj × AMap (Option SongObj))
    (h : amapGet acc.2 ck = some none) :
    amapGet (l.foldl lookupStep acc).2 ck = some none := by
  induction l generalizing acc with
  | nil => exact h
  | cons x t ih =>
    simp only [List.foldl_cons]
    apply ih
    rcases hcx : canonOfExactKey (exactKeyOf x) with _ | ck'
    · rw [lookupStep_snd_none _ _ hcx]
      exact h
    · rcases hg : amapGet acc.2 ck' with _ | v
      · by_cases hck : ck' = ck
        · subst hck
          rw [h] at hg
          exact Option.noConfusion hg
        · rw [lookupStep_snd_fresh _ _ _ hcx hg, amapGet_amapSet, if_neg hck]
          exact h
      · by_cases hck : ck' = ck
        · subst hck
          rw [lookupStep_snd_poison _ _ _ _ hcx hg, amapGet_amapSet, if_pos rfl]
        · rw [lookupStep_snd_poison _ _ _ _ hcx hg, amapGet_amapSet, if_neg hck]
          exact h

theorem lookup_fold_one (ck : String) (l : List (String × SongObj))
    (acc : AMap SongObj × AMap (Option SongObj))
    (hs : (amapGet acc.2 ck).isSome = true)
    (hc : 1 ≤ (l.filter
      (fun kv => decide (canonOfExactKey (exactKeyOf kv) = some ck))).length) :
    amapGet (l.foldl lookupStep acc).2 ck = some none := by
  induction l generalizing acc with
  | nil => simp at hc
  | cons x t ih =>
    simp only [List.foldl_cons]
    by_cases hcx : canonOfExactKey (exactKeyOf x) = some ck
    · apply lookup_fold_stick
      obtain ⟨v, hv⟩ := Option.isSome_iff_exists.mp hs
      rw [lookupStep_snd_poison _ _ _ _ hcx hv, amapGet_amapSet, if_pos rfl]
    · have hc' : 1 ≤ (t.filter
          (fun kv => decide (canonOfExactKey (exactKeyOf kv) = some ck))).length := by
        rw [List.filter_cons_of_neg (by simpa using hcx)] at hc
        exact hc
      refine ih _ ?_ hc'
      rcases hcc : canonOfExactKey (exactKeyOf x) with _ | ck'
      · rw [lookupStep_snd_none _ _ hcc]
        exact hs
      · have hne : ck' ≠ ck := fun he => hcx (he ▸ hcc)
        rcases hg : amapGet acc.2 ck' with _ | v
        · rw [lookupStep_snd_fresh _ _ _ hcc hg, amapGet_amapSet, if_neg hne]
          exact hs
        · rw [lookupStep_snd_poison _ _ _ _ hcc hg, amapGet_amapSet, if_neg hne]
          exact hs

theorem lookup_fold_two (ck : String) (l : List (String × SongObj))
    (acc : AMap SongObj × AMap (Option SongObj))
    (hc : 2 ≤ (l.filter
      (fun kv => decide (canonOfExactKey (exactKeyOf kv) = some ck))).length) :
    amapGet (l.foldl lookupStep acc).2 ck = some none := by
  induction l generalizing acc with
  | nil => simp at hc
  | cons x t ih =>
    simp only [List.foldl_cons]
    by_cases hcx : canonOfExactKey (exactKeyOf x) = some ck
    · have hc' : 1 ≤ (t.filter
          (fun kv => decide (canonOfExactKey (exactKeyOf kv) = some ck))).length := by
        rw [List.filter_cons_of_pos (by simpa using hcx)] at hc
        simpa using hc
      refine lookup_fold_one ck t _ ?_ hc'
      rcases hg : amapGet acc.2 ck with _ | v
      · rw [lookupStep_snd_fresh _ _ _ hcx hg, amapGet_amapSet, if_pos rfl]
        rfl
      · rw [lookupStep_snd_poison _ _ _ _ hcx hg, amapGet_amapSet, if_pos rfl]
        rfl
    · have hc' : 2 ≤ (t.filter
          (fun kv => decide (canonOfExactKey (exactKeyOf kv) = some ck))).length := by
        rw [List.filter_cons_of_neg (by simpa using hcx)] at hc
        exact hc
      exact ih _ hc'

theorem two_mem_filter_length {α : Type} (p : α → Bool) (a b : α)
    (hab : a ≠ b) (hpa : p a = true) (hpb : p b = true) :
    ∀ l : List α, a ∈ l → b ∈ l → 2 ≤ (l.filter p).length := by
  intro l
  induction l with
  | nil => intro ha; simp at ha
  | cons x t ih =>
    intro ha hb
    by_cases hxa : x = a
    · subst hxa
      have hbt : b ∈ t := by
        rcases List.mem_cons.mp hb with h | h
        · exact absurd h.symm hab
        · exact h
      have hmem : b ∈ t.filter p := List.mem_filter.mpr ⟨hbt, hpb⟩
      have h1 : 0 < (t.filter p).length :=
        List.length_pos.mpr (List.ne_nil_of_mem hmem)
      rw [List.filter_cons_of_pos hpa, List.length_cons]
      omega
    · by_cases hxb : x = b
      · subst hxb
        have hat : a ∈ t := by
          rcases List.mem_cons.mp ha with h | h
          · exact absurd h hab
          · exact h
        have hmem : a ∈ t.filter p := List.mem_filter.mpr ⟨hat, hpa⟩
        have h1 : 0 < (t.filter p).length :=
          List.length_pos.mpr (List.ne_nil_of_mem hmem)
        rw [List.filter_cons_of_pos hpb, List.length_cons]
        omega
      · have hat : a ∈ t := by
          rcases List.mem_cons.mp ha with h | h
          · exact absurd h.symm hxa
          · exact h
        have hbt : b ∈ t := by
          rcases List.mem_cons.mp hb with h | h
          · exact absurd h.symm hxb
          · exact h
        have h2 := ih hat hbt
        cases hpx : p x
        · rw [List.filter_cons_of_neg (by simp [hpx])]
          exact h2
        · rw [List.filter_cons_of_pos hpx, List.length_cons]
          omega

/-- Claim C7: canonical fallback is used only when unambiguous.  If two
distinct exact keys of the catalog collapse to the query's canonical key
and the query's exact key is not in the catalog, `findCatalogSong` on the
built lookups returns no match (it does not pick either candidate, and no
error is raised: the function is total). -/
theorem c7_ambiguous_canon (catalogSongs : List (String × SongObj))
    (title artist k1 k2 : String)
    (hk1 : k1 ∈ catalogSongs.map exactKeyOf)
    (hk2 : k2 ∈ catalogSongs.map exactKeyOf)
    (hne : k1 ≠ k2)
    (hc1 : canonOfExactKey k1 = some (canonKey title artist))
    (hc2 : canonOfExactKey k2 = some (canonKey title artist))
    (hmiss : songKeyP1 title artist ∉ catalogSongs.map exactKeyOf) :
    findCatalogSong (buildLookups catalogSongs) title artist = none := by
  obtain ⟨kv1, hkv1, hek1⟩ := List.mem_map.mp hk1
  obtain ⟨kv2, hkv2, hek2⟩ := List.mem_map.mp hk2
  have hkvne : kv1 ≠ kv2 := fun he => hne (by rw [← hek1, ← hek2, he])
  have hp1 : decide (canonOfExactKey (exactKeyOf kv1) =
      some (canonKey title artist)) = true := by
    rw [decide_eq_true_iff, hek1]
    exact hc1
  have hp2 : decide (canonOfExactKey (exactKeyOf kv2) =
      some (canonKey title artist)) = true := by
    rw [decide_eq_true_iff, hek2]
    exact hc2
  have hcount := two_mem_filter_length
    (fun kv => decide (canonOfExactKey (exactKeyOf kv) = some (canonKey title artist)))
    kv1 kv2 hkvne hp1 hp2 catalogSongs hkv1 hkv2
  have hcanon : amapGet (buildLookups catalogSongs).2 (canonKey title artist) =
      some none := lookup_fold_two _ _ _ hcount
  have hexact : amapGet (buildLookups catalogSongs).1 (songKeyP1 title artist) =
      none := by
    unfold buildLookups
    rw [lookup_fold_fst _ _ _ hmiss]
    rfl
  simp only [findCatalogSong, hexact, hcanon]

/-- Witness for C7: the exact keys `a - x!` and `a - x?` both collapse to
the canonical key `a - x`, which the query (title `X.`, artist `A`) also
produces, so the lookup returns no match. -/
theorem c7_witness :
    findCatalogSong
      (buildLookups [("A - X!", [⟨"2024-01-01", 1⟩]), ("A - X?", [⟨"2024-01-01", 2⟩])])
      "X." "A" = none :=
  c7_ambiguous_canon
    [("A - X!", [⟨"2024-01-01", 1⟩]), ("A - X?", [⟨"2024-01-01", 2⟩])]
    "X." "A" "a - x!" "a - x?" (by decide) (by decide) (by decide) (by decide)
    (by decide) (by decide)

/- ===== claim C9 (corrected) ===== -/

theorem not_wellFormedRaw_iff (raw : RawEntry) :
    ¬ wellFormedRaw raw ↔
      (cleanTitle raw.title = "" ∨ cleanArtistName raw.artist = "") ∨
        raw.rank = none := by
  unfold wellFormedRaw
  rw [← Option.not_isSome_iff_eq_none]
  constructor
  · intro h
    by_cases h1 : cleanTitle raw.title = ""
    · exact Or.inl (Or.inl h1)
    · by_cases h2 : cleanArtistName raw.artist = ""
      · exact Or.inl (Or.inr h2)
      · exact Or.inr (fun h3 => h ⟨h1, h2, h3⟩)
  · rintro ((h | h) | h) ⟨h1, h2, h3⟩
    · exact h1 h
    · exact h2 h
    · exact h h3

theorem processEntry_skip_empty (w : String)
    (acc : AMap Int × AMap (List Appearance) × AMap SeenStat) (raw : RawEntry)
    (h : cleanTitle raw.title = "" ∨ cleanArtistName raw.artist = "") :
    processEntry w acc raw = acc := by
  simp only [processEntry]
  rw [if_pos h]

theorem processEntry_skip_rank (w : String)
    (acc : AMap Int × AMap (List Appearance) × AMap SeenStat) (raw : RawEntry)
    (h1 : ¬ (cleanTitle raw.title = "" ∨ cleanArtistName raw.artist = ""))
    (h2 : raw.rank = none) :
    processEntry w acc raw = acc := by
  simp only [processEntry]
  rw [if_neg h1, h2]

theorem processEntry_not_wf (w : String)
    (acc : AMap Int × AMap (List Appearance) × AMap SeenStat) (raw : RawEntry)
    (h : ¬ wellFormedRaw raw) : processEntry w acc raw = acc := by
  rcases (not_wellFormedRaw_iff raw).mp h with h | h
  · exact processEntry_skip_empty w acc raw h
  · by_cases h1 : cleanTitle raw.title = "" ∨ cleanArtistName raw.artist = ""
    · exact processEntry_skip_empty w acc raw h1
    · exact processEntry_skip_rank w acc raw h1 h

theorem processEntry_hm_good (w : String)
    (acc : AMap Int × AMap (List Appearance) × AMap SeenStat) (raw : RawEntry)
    (r : Int)
    (h1 : ¬ (cleanTitle raw.title = "" ∨ cleanArtistName raw.artist = ""))
    (h2 : raw.rank = some r) :
    (processEntry w acc raw).2.1 =
      amapSet acc.2.1 (rawKey raw)
        (((amapGet acc.2.1 (rawKey raw)).getD []) ++ [⟨w, r⟩]) := by
  simp only [processEntry]
  rw [if_neg h1, h2]
  rfl

theorem processEntry_hm_isSome (w : String)
    (acc : AMap Int × AMap (List Appearance) × AMap SeenStat) (raw : RawEntry)
    (k : String) (h : (amapGet acc.2.1 k).isSome = true) :
    (amapGet (processEntry w acc raw).2.1 k).isSome = true := by
  by_cases hwf : wellFormedRaw raw
  · obtain ⟨ht, ha, hr⟩ := hwf
    obtain ⟨r, hr2⟩ := Option.isSome_iff_exists.mp hr
    rw [processEntry_hm_good w acc raw r (by rw [not_or]; exact ⟨ht, ha⟩) hr2,
      amapGet_amapSet]
    by_cases hk : rawKey raw = k
    · rw [if_pos hk]
      rfl
    · rw [if_neg hk]
      exact h
  · rw [processEntry_not_wf w acc raw hwf]
    exact h

theorem hm_fold_isSome (entries : List RawEntry) (w : String)
    (acc : AMap Int × AMap (List Appearance) × AMap SeenStat) (k : String)
    (h : (amapGet acc.2.1 k).isSome = true) :
    (amapGet (entries.foldl (processEntry w) acc).2.1 k).isSome = true := by
  induction entries generalizing acc with
  | nil => exact h
  | cons x t ih =>
    simp only [List.foldl_cons]
    exact ih _ (processEntry_hm_isSome w acc x k h)

theorem hm_fold_sources (entries : List RawEntry) (w : String)
    (acc : AMap Int × AMap (List Appearance) × AMap SeenStat) (k : String)
    (h : (amapGet (entries.foldl (processEntry w) acc).2.1 k).isSome = true) :
    (amapGet acc.2.1 k).isSome = true ∨
      ∃ raw ∈ entries, wellFormedRaw raw ∧ k = rawKey raw := by
  induction entries generalizing acc with
  | nil => exact Or.inl h
  | cons x t ih =>
    simp only [List.foldl_cons] at h
    rcases ih (processEntry w acc x) h with h1 | h1
    · by_cases hwf : wellFormedRaw x
      · obtain ⟨ht, ha, hr⟩ := hwf
        obtain ⟨r, hr2⟩ := Option.isSome_iff_exists.mp hr
        rw [processEntry_hm_good w acc x r (by rw [not_or]; exact ⟨ht, ha⟩) hr2,
          amapGet_amapSet] at h1
        by_cases hk : rawKey x = k
        · exact Or.inr ⟨x, List.mem_cons_self x t, ⟨ht, ha, hr⟩, hk.symm⟩
        · rw [if_neg hk] at h1
          exact Or.inl h1
      · rw [processEntry_not_wf w acc x hwf] at h1
        exact Or.inl h1
    · obtain ⟨raw, hmem, hwf, hk⟩ := h1
      exact Or.inr ⟨raw, List.mem_cons_of_mem x hmem, hwf, hk⟩

theorem hm_fold_self (entries : List RawEntry) (w : String)
    (acc : AMap Int × AMap (List Appearance) × AMap SeenStat) (raw : RawEntry)
    (hmem : raw ∈ entries) (hwf : wellFormedRaw raw) :
    (amapGet (entries.foldl (processEntry w) acc).2.1 (rawKey raw)).isSome = true := by
  induction entries generalizing acc with
  | nil => simp at hmem
  | cons x t ih =>
    simp only [List.foldl_cons]
    rcases List.mem_cons.mp hmem with hx | hx
    · subst hx
      apply hm_fold_isSome
      obtain ⟨ht, ha, hr⟩ := hwf
      obtain ⟨r, hr2⟩ := Option.isSome_iff_exists.mp hr
      rw [processEntry_hm_good w acc raw r (by rw [not_or]; exact ⟨ht, ha⟩) hr2,
        amapGet_amapSet, if_pos rfl]
      rfl
    · exact ih _ hx

theorem amapGet_sortAll (m : AMap (List Appearance)) (k : String) :
    amapGet (m.map (fun kv => (kv.1, sortHistoryDesc kv.2))) k =
      (amapGet m k).map sortHistoryDesc := by
  induction m with
  | nil => rfl
  | cons hd tl ih =>
    obtain ⟨k0, v0⟩ := hd
    by_cases h0 : k0 = k <;> simp only [List.map_cons, amapGet_cons, h0, if_pos,
      if_neg, ih] <;> simp [h0, ih]

theorem isSome_omap {α β : Type} (f : α → β) (o : Option α) :
    (Option.map f o).isSome = o.isSome := by
  cases o <;> rfl

theorem buildDerived_historyMap (weeksAsc : List String)
    (wd : AMap (List RawEntry)) (tw : String) :
    (buildDerived weeksAsc wd tw).historyMap =
      (buildDerivedGo weeksAsc wd tw [] [] []).historyMap.map
        (fun kv => (kv.1, sortHistoryDesc kv.2)) := rfl

theorem go_sources (weeks : List String) (wd : AMap (List RawEntry)) (tw : String) :
    ∀ (ss : AMap SeenStat) (hm : AMap (List Appearance)) (pwr : AMap Int) (k : String),
    (amapGet (buildDerivedGo weeks wd tw ss hm pwr).historyMap k).isSome = true →
    (amapGet hm k).isSome = true ∨
      ∃ w ∈ weeks, ∃ raw ∈ (amapGet wd w).getD [],
        wellFormedRaw raw ∧ k = rawKey raw := by
  induction weeks with
  | nil => exact fun ss hm pwr k h => Or.inl h
  | cons w rest ih =>
    intro ss hm pwr k h
    simp only [buildDerivedGo] at h
    by_cases hwt : w = tw
    · rw [if_pos hwt] at h
      rcases hm_fold_sources _ w _ k h with h1 | h1
      · exact Or.inl h1
      · obtain ⟨raw, hmem, hwf, hk⟩ := h1
        exact Or.inr ⟨w, List.mem_cons_self w rest, raw, hmem, hwf, hk⟩
    · rw [if_neg hwt] at h
      rcases ih _ _ _ k h with h1 | h1
      · rcases hm_fold_sources _ w _ k h1 with h2 | h2
        · exact Or.inl h2
        · obtain ⟨raw, hmem, hwf, hk⟩ := h2
          exact Or.inr ⟨w, List.mem_cons_self w rest, raw, hmem, hwf, hk⟩
      · obtain ⟨w', hw', raw, hmem, hwf, hk⟩ := h1
        exact Or.inr ⟨w', List.mem_cons_of_mem w hw', raw, hmem, hwf, hk⟩

theorem go_self (weeks : List String) (wd : AMap (List RawEntry)) (tw : String)
    (raw : RawEntry) (htw : tw ∈ weeks)
    (hmem : raw ∈ (amapGet wd tw).getD []) (hwf : wellFormedRaw raw) :
    ∀ (ss : AMap SeenStat) (hm : AMap (List Appearance)) (pwr : AMap Int),
    (amapGet (buildDerivedGo weeks wd tw ss hm pwr).historyMap (rawKey raw)).isSome =
      true := by
  induction weeks with
  | nil => simp at htw
  | cons w rest ih =>
    intro ss hm pwr
    simp only [buildDerivedGo]
    by_cases hwt : w = tw
    · rw [if_pos hwt]
      subst hwt
      exact hm_fold_self _ w _ raw hmem hwf
    · rw [if_neg hwt]
      have htw' : tw ∈ rest := by
        rcases List.mem_cons.mp htw with h | h
        · exact absurd h.symm hwt
        · exact h
      exact ih htw' _ _ _

/-- Claim C9 as amended: malformed entries (empty cleaned title or artist,
or non-numeric rank) are excluded from the derived history/stats index —
every key of `buildDerived`'s history map comes from a well-formed entry —
and their presence does not prevent well-formed entries from being
processed; however, the computed chart view itself still contains one
derived entry for every raw entry of the target week, including the
malformed ones. -/
theorem c9_amended :
    (∀ (weeksAsc : List String) (wd : AMap (List RawEntry)) (tw k : String),
      (amapGet (buildDerived weeksAsc wd tw).historyMap k).isSome = true →
      ∃ w ∈ weeksAsc, ∃ raw ∈ (amapGet wd w).getD [],
        wellFormedRaw raw ∧ k = rawKey raw) ∧
    (∀ (weeksAsc : List String) (wd : AMap (List RawEntry)) (tw : String)
        (raw : RawEntry), tw ∈ weeksAsc → raw ∈ (amapGet wd tw).getD [] →
      wellFormedRaw raw →
      (amapGet (buildDerived weeksAsc wd tw).historyMap (rawKey raw)).isSome = true) ∧
    (∀ (weeksDesc : List String) (wd : AMap (List RawEntry)) (tw : String),
      (mainDerivedEntries weeksDesc wd tw).length = ((amapGet wd tw).getD []).length) := by
  refine ⟨?_, ?_, ?_⟩
  · intro weeksAsc wd tw k h
    rw [buildDerived_historyMap, amapGet_sortAll, isSome_omap] at h
    rcases go_sources weeksAsc wd tw [] [] [] k h with h1 | h1
    · simp [amapGet] at h1
    · exact h1
  · intro weeksAsc wd tw raw htw hmem hwf
    rw [buildDerived_historyMap, amapGet_sortAll, isSome_omap]
    exact go_self weeksAsc wd tw raw htw hmem hwf [] [] []
  · intro weeksDesc wd tw
    simp only [mainDerivedEntries]
    rw [List.length_map]

/-- Counterexample to C9 as stated: with one well-formed entry and one
whose artist cleans to the empty string, the computed chart view still
contains both entries — the malformed one is not excluded from the view
(it is only excluded from the derived history/stats maps). -/
theorem c9_counterexample :
    (mainDerivedEntries ["2024-01-08"]
      [("2024-01-08", [⟨"Song A", "Artist A", some 1⟩,
                       ⟨"Song B", "(60.0 pts)", some 2⟩])]
      "2024-01-08").map (fun e => (e.artist, e.rank)) =
      [("Artist A", some 1), ("", some 2)] := by
  decide

/-- Witness for the amended C9: the well-formed entry's key is present in
the derived history even though a malformed sibling is in the same week,
and the view length counts both entries. -/
theorem c9_witness :
    (amapGet (buildDerived ["2024-01-08"]
      [("2024-01-08", [⟨"Song A", "Artist A", some 1⟩,
                       ⟨"Song B", "(60.0 pts)", some 2⟩])]
      "2024-01-08").historyMap
      (rawKey ⟨"Song A", "Artist A", some 1⟩)).isSome = true ∧
    (mainDerivedEntries ["2024-01-08"]
      [("2024-01-08", [⟨"Song A", "Artist A", some 1⟩,
                       ⟨"Song B", "(60.0 pts)", some 2⟩])]
      "2024-01-08").length =
      ((amapGet ([("2024-01-08", [⟨"Song A", "Artist A", some 1⟩,
                       ⟨"Song B", "(60.0 pts)", some 2⟩])] : AMap (List RawEntry))
        "2024-01-08").getD []).length :=
  ⟨c9_amended.2.1 ["2024-01-08"] _ "2024-01-08" ⟨"Song A", "Artist A", some 1⟩
      (by decide) (by decide) ⟨by decide, by decide, rfl⟩,
    c9_amended.2.2 ["2024-01-08"] _ "2024-01-08"⟩

/- ===== claim C10: trim and scanner structure lemmas ===== -/

theorem mem_of_mem_dropWhileChars {p : Char → Bool} {x : Char} {l : List Char}
    (h : x ∈ l.dropWhile p) : x ∈ l :=
  (List.dropWhile_sublist p).mem h

theorem mem_of_mem_jsTrimR {x : Char} {l : List Char} (h : x ∈ jsTrimR l) : x ∈ l := by
  unfold jsTrimR at h
  rw [List.mem_reverse] at h
  exact List.mem_reverse.mp (mem_of_mem_dropWhileChars h)

theorem mem_of_mem_dropTrailing {p : Char → Bool} {x : Char} {l : List Char}
    (h : x ∈ dropTrailing p l) : x ∈ l := by
  unfold dropTrailing at h
  rw [List.mem_reverse] at h
  exact List.mem_reverse.mp (mem_of_mem_dropWhileChars h)

theorem mem_of_mem_jsTrim {x : Char} {l : List Char} (h : x ∈ jsTrim l) : x ∈ l := by
  unfold jsTrim jsTrimL at h
  exact mem_of_mem_dropWhileChars (mem_of_mem_jsTrimR h)

theorem dropWhile_append_stop (p : Char → Bool) (xs : List Char) (c : Char)
    (cs : List Char) (hc : p c = false) :
    (xs ++ c :: cs).dropWhile p = xs.dropWhile p ++ c :: cs := by
  induction xs with
  | nil => simp [List.dropWhile_cons, hc]
  | cons x t ih =>
    by_cases hx : p x = true
    · simp [List.dropWhile_cons, hx, ih]
    · simp [List.dropWhile_cons, hx]

theorem jsTrimR_append_stop (xs : List Char) (c : Char) (cs : List Char)
    (hc : jsWs c = false) : jsTrimR (xs ++ c :: cs) = xs ++ c :: jsTrimR cs := by
  unfold jsTrimR
  rw [List.reverse_append, List.reverse_cons, List.append_assoc,
    List.singleton_append, dropWhile_append_stop jsWs cs.reverse c xs.reverse hc]
  rw [List.reverse_append, List.reverse_cons, List.reverse_reverse]
  simp [List.append_assoc]

theorem stripTrailingStars_no_star (l : List Char) (h : '*' ∉ l) :
    stripTrailingStars l = l := by
  simp only [stripTrailingStars]
  rcases hg : (dropTrailing jsWs l).getLast? with _ | c
  · rfl
  · have hcm : c ∈ l := mem_of_mem_dropTrailing (List.mem_of_mem_getLast? hg)
    have hc : (c == '*') = false := by
      rw [beq_eq_false_iff_ne]
      intro he
      exact h (he ▸ hcm)
    simp [hc]

theorem matchParenAt_no_paren (l : List Char) (h : '(' ∉ l) : matchParenAt l = none := by
  simp only [matchParenAt]
  rcases hd : l.dropWhile jsWs with _ | ⟨c, rest⟩
  · rfl
  · have hcd : c ∈ l.dropWhile jsWs := by
      rw [hd]; exact List.mem_cons_self c rest
    have hc : c ≠ '(' := fun he => h (mem_of_mem_dropWhileChars (he ▸ hcd))
    split
    · next rest2 heq =>
      injection heq with h1 _
      exact absurd h1 hc
    · rfl

theorem splitAtClose_exact (inner post : List Char) (hi : ')' ∉ inner) :
    splitAtCloseParen (inner ++ ')' :: post) = some (inner, post) := by
  induction inner with
  | nil => simp [splitAtCloseParen]
  | cons a t ih =>
    have ha : (a == ')') = false := by
      rw [beq_eq_false_iff_ne]
      intro he
      exact hi (he ▸ List.mem_cons_self a t)
    have ih2 := ih (fun hm => hi (List.mem_cons_of_mem a hm))
    simp [splitAtCloseParen, ha, ih2]

theorem matchParenAt_paren (inner post : List Char) (hi : ')' ∉ inner) :
    matchParenAt ('(' :: (inner ++ ')' :: post)) = some (inner, post.dropWhile jsWs) := by
  simp only [matchParenAt]
  rw [List.dropWhile_cons]
  have : jsWs '(' = false := by decide
  rw [this]
  simp only [Bool.false_eq_true, if_false]
  rw [splitAtClose_exact inner post hi]

theorem rpsGo_no_paren (fuel : Nat) (l : List Char) (h : '(' ∉ l) :
    rpsGo fuel l = l := by
  induction fuel generalizing l with
  | zero => rfl
  | succ f ih =>
    cases l with
    | nil => rfl
    | cons c cs =>
      simp only [rpsGo]
      rw [matchParenAt_no_paren _ h]
      have hcs : '(' ∉ cs := fun hm => h (List.mem_cons_of_mem c hm)
      show c :: rpsGo f cs = c :: cs
      rw [ih cs hcs]

theorem dropWhile_ws_front (p : Char → Bool) (b W : List Char)
    (hb : ∀ x ∈ b, p x = true) : (b ++ W).dropWhile p = W.dropWhile p := by
  induction b with
  | nil => rfl
  | cons a t ih =>
    rw [List.cons_append, List.dropWhile_cons, hb a (List.mem_cons_self a t)]
    exact ih (fun x hx => hb x (List.mem_cons_of_mem a hx))

theorem dropWhile_all (p : Char → Bool) (b : List Char)
    (hb : ∀ x ∈ b, p x = true) : b.dropWhile p = [] :=
  List.dropWhile_eq_nil_iff.mpr hb

theorem dropTrailing_all (p : Char → Bool) (b : List Char)
    (hb : ∀ x ∈ b, p x = true) : dropTrailing p b = [] := by
  unfold dropTrailing
  rw [dropWhile_all p b.reverse (fun x hx => hb x (List.mem_reverse.mp hx))]
  rfl

theorem dropWhile_head_false (p : Char → Bool) (l : List Char) (d : Char)
    (rest : List Char) (h : l.dropWhile p = d :: rest) : p d = false := by
  induction l with
  | nil => exact absurd h (by simp)
  | cons a t ih =>
    rw [List.dropWhile_cons] at h
    by_cases pa : p a = true
    · rw [pa] at h
      simp only [if_pos rfl] at h
      exact ih h
    · rw [eq_false_of_ne_true pa] at h
      simp only [Bool.false_eq_true, if_false] at h
      have := (List.cons.injEq a t d rest).mp h
      rw [← this.1]
      exact eq_false_of_ne_true pa

theorem dropTrailing_cons (p : Char → Bool) (c : Char) (l : List Char)
    (h : ¬ ∀ x ∈ c :: l, p x = true) :
    dropTrailing p (c :: l) = c :: dropTrailing p l := by
  by_cases hl : ∀ x ∈ l, p x = true
  · have hc : p c = false := by
      push_neg at h
      rcases h with ⟨x, hmem, hnp⟩
      rcases List.mem_cons.mp hmem with hxc | hxl
      · rw [← hxc]; exact eq_false_of_ne_true hnp
      · exact absurd (hl x hxl) hnp
    unfold dropTrailing
    rw [List.reverse_cons,
      dropWhile_ws_front p l.reverse [c] (fun x hx => hl x (List.mem_reverse.mp hx)),
      List.dropWhile_cons, hc]
    simp only [Bool.false_eq_true, if_false, List.dropWhile_nil]
    rw [dropWhile_all p l.reverse (fun x hx => hl x (List.mem_reverse.mp hx))]
    rfl
  · have hne : l.reverse.dropWhile p ≠ [] := by
      intro he
      exact hl (fun x hx =>
        List.dropWhile_eq_nil_iff.mp he x (List.mem_reverse.mpr hx))
    unfold dropTrailing
    rw [List.reverse_cons, List.dropWhile_append]
    rw [if_neg (by simpa [List.isEmpty_iff] using hne)]
    rw [List.reverse_append]
    rfl

theorem matchParenAt_ws_front (w l : List Char) (hw : ∀ x ∈ w, jsWs x = true) :
    matchParenAt (w ++ l) = matchParenAt l := by
  simp only [matchParenAt]
  rw [dropWhile_ws_front jsWs w l hw]

theorem matchParenAt_none_pre (pre m : List Char) (hp : '(' ∉ pre)
    (hne : ¬ ∀ x ∈ pre, jsWs x = true) : matchParenAt (pre ++ m) = none := by
  have hdne : pre.dropWhile jsWs ≠ [] := by
    intro he
    exact hne (List.dropWhile_eq_nil_iff.mp he)
  rcases hd : pre.dropWhile jsWs with _ | ⟨d, rest⟩
  · exact absurd hd hdne
  have hdw : jsWs d = false := dropWhile_head_false jsWs pre d rest hd
  have hdm : d ∈ pre := mem_of_mem_dropWhileChars (by rw [hd]; exact List.mem_cons_self d rest)
  have hdp : d ≠ '(' := fun he => hp (he ▸ hdm)
  simp only [matchParenAt]
  rw [List.dropWhile_append, if_neg (by simpa [List.isEmpty_iff] using hdne), hd,
    List.cons_append]
  split
  · next rest2 heq =>
    injection heq with h1 _
    exact absurd h1 hdp
  · rfl

theorem rpsGo_master (pre inner post : List Char)
    (hp : '(' ∉ pre) (hi2 : ')' ∉ inner) (ho : '(' ∉ post)
    (fuel : Nat) (hfuel : pre.length + 1 ≤ fuel) :
    rpsGo fuel (pre ++ '(' :: (inner ++ ')' :: post)) =
      dropTrailing jsWs pre ++ (parenReplacement inner ++ post.dropWhile jsWs) := by
  induction pre generalizing fuel with
  | nil =>
    cases fuel with
    | zero => omega
    | succ f =>
      rw [List.nil_append]
      simp only [rpsGo]
      rw [matchParenAt_paren inner post hi2]
      show parenReplacement inner ++ rpsGo f (post.dropWhile jsWs) =
        dropTrailing jsWs [] ++ (parenReplacement inner ++ post.dropWhile jsWs)
      rw [rpsGo_no_paren f (post.dropWhile jsWs)
        (fun hm => ho (mem_of_mem_dropWhileChars hm))]
      rfl
  | cons c pre2 ih =>
    cases fuel with
    | zero => omega
    | succ f =>
      by_cases hall : ∀ x ∈ c :: pre2, jsWs x = true
      · rw [List.cons_append]
        simp only [rpsGo]
        rw [← List.cons_append,
          matchParenAt_ws_front (c :: pre2) ('(' :: (inner ++ ')' :: post)) hall,
          matchParenAt_paren inner post hi2]
        show parenReplacement inner ++ rpsGo f (post.dropWhile jsWs) =
          dropTrailing jsWs (c :: pre2) ++ (parenReplacement inner ++ post.dropWhile jsWs)
        rw [rpsGo_no_paren f (post.dropWhile jsWs)
          (fun hm => ho (mem_of_mem_dropWhileChars hm)),
          dropTrailing_all jsWs (c :: pre2) hall]
        rfl
      · rw [List.cons_append]
        simp only [rpsGo]
        rw [← List.cons_append,
          matchParenAt_none_pre (c :: pre2) ('(' :: (inner ++ ')' :: post)) hp hall]
        show c :: rpsGo f (pre2 ++ '(' :: (inner ++ ')' :: post)) =
          dropTrailing jsWs (c :: pre2) ++ (parenReplacement inner ++ post.dropWhile jsWs)
        rw [ih (fun hm => hp (List.mem_cons_of_mem c hm)) f
          (by simp only [List.length_cons] at hfuel; omega),
          dropTrailing_cons jsWs c pre2 hall]
        rfl

theorem jsTrimR_append_ws (Z e : List Char) (he : ∀ x ∈ e, jsWs x = true) :
    jsTrimR (Z ++ e) = jsTrimR Z := by
  unfold jsTrimR
  rw [List.reverse_append,
    dropWhile_ws_front jsWs e.reverse Z.reverse (fun x hx => he x (List.mem_reverse.mp hx))]

theorem jsTrim_append_ws (Y e : List Char) (he : ∀ x ∈ e, jsWs x = true) :
    jsTrim (Y ++ e) = jsTrim Y := by
  unfold jsTrim jsTrimL
  rcases hY : Y.dropWhile jsWs with _ | ⟨d, ds⟩
  · rw [List.dropWhile_append, hY]
    simp only [List.isEmpty_nil, if_true]
    rw [dropWhile_all jsWs e he]
  · rw [List.dropWhile_append, hY]
    simp only [List.isEmpty_cons, Bool.false_eq_true, if_false]
    exact jsTrimR_append_ws (d :: ds) e he

theorem jsTrim_ws_front (e Y : List Char) (he : ∀ x ∈ e, jsWs x = true) :
    jsTrim (e ++ Y) = jsTrim Y := by
  unfold jsTrim jsTrimL
  rw [dropWhile_ws_front jsWs e Y he]

theorem endWsFlag_cons (f : Bool) (a : Char) (l : List Char) :
    endWsFlag f (a :: l) = endWsFlag (jsWs a) l := rfl

theorem collapseWsGo_append (A B : List Char) (f : Bool) :
    collapseWsGo f (A ++ B) = collapseWsGo f A ++ collapseWsGo (endWsFlag f A) B := by
  induction A generalizing f with
  | nil => rfl
  | cons a t ih =>
    rw [List.cons_append]
    cases ha : jsWs a with
    | true =>
      cases f with
      | true => simp [collapseWsGo, ha, endWsFlag_cons, ih true]
      | false => simp [collapseWsGo, ha, endWsFlag_cons, ih true]
    | false => simp [collapseWsGo, ha, endWsFlag_cons, ih false]

theorem cGo_true_ws_front (b Q : List Char) (hb : ∀ x ∈ b, jsWs x = true) :
    collapseWsGo true (b ++ Q) = collapseWsGo true Q := by
  induction b with
  | nil => rfl
  | cons a t ih =>
    rw [List.cons_append]
    simp only [collapseWsGo, hb a (List.mem_cons_self a t), if_pos rfl]
    exact ih (fun x hx => hb x (List.mem_cons_of_mem a hx))

theorem cGo_ws_sep (b : List Char) (hb : ∀ x ∈ b, jsWs x = true)
    (g : Bool) (Q : List Char) :
    collapseWsGo g (b ++ ' ' :: Q) = collapseWsGo g (' ' :: Q) := by
  induction b generalizing g with
  | nil => rfl
  | cons a t ih =>
    rw [List.cons_append]
    have ha : jsWs a = true := hb a (List.mem_cons_self a t)
    have ih2 := ih (fun x hx => hb x (List.mem_cons_of_mem a hx)) true
    have hsp : jsWs ' ' = true := by decide
    cases g with
    | true =>
      simp only [collapseWsGo, ha, if_true]
      rw [ih2]
      simp [collapseWsGo, hsp]
    | false =>
      simp only [collapseWsGo, ha, hsp, Bool.false_eq_true, if_true, if_false]
      rw [ih2]
      simp [collapseWsGo, hsp]

theorem cGo_sep_ws (g : Bool) (b Q : List Char) (hb : ∀ x ∈ b, jsWs x = true) :
    collapseWsGo g (' ' :: (b ++ Q)) = collapseWsGo g (' ' :: Q) := by
  have hsp : jsWs ' ' = true := by decide
  cases g with
  | true =>
    simp only [collapseWsGo, hsp, if_true]
    exact cGo_true_ws_front b Q hb
  | false =>
    simp only [collapseWsGo, hsp, Bool.false_eq_true, if_true, if_false]
    rw [cGo_true_ws_front b Q hb]

theorem cGo_all_ws (g : Bool) (b : List Char) (hb : ∀ x ∈ b, jsWs x = true) :
    ∀ x ∈ collapseWsGo g b, jsWs x = true := by
  induction b generalizing g with
  | nil => intro x hx; exact absurd hx (List.not_mem_nil x)
  | cons a t ih =>
    intro x hx
    have ha : jsWs a = true := hb a (List.mem_cons_self a t)
    have iht := ih true (fun y hy => hb y (List.mem_cons_of_mem a hy))
    simp only [collapseWsGo, ha, if_true] at hx
    cases g with
    | true => exact iht x hx
    | false =>
      simp only [Bool.false_eq_true, if_false, List.mem_cons] at hx
      rcases hx with hx | hx
      · rw [hx]; decide
      · exact iht x hx

theorem jsTrimL_cGo_tf (X : List Char) :
    jsTrimL (collapseWsGo true X) = jsTrimL (collapseWsGo false X) := by
  cases X with
  | nil => rfl
  | cons c cs =>
    cases hc : jsWs c with
    | true =>
      simp only [collapseWsGo, hc, if_true, Bool.false_eq_true, if_false]
      unfold jsTrimL
      rw [List.dropWhile_cons]
      have hsp : jsWs ' ' = true := by decide
      rw [hsp]
      simp
    | false => simp [collapseWsGo, hc]

theorem jsTrim_cGo_tf (X : List Char) :
    jsTrim (collapseWsGo true X) = jsTrim (collapseWsGo false X) := by
  unfold jsTrim
  rw [jsTrimL_cGo_tf]

theorem trimCollapse_ws_front (b X : List Char) (hb : ∀ x ∈ b, jsWs x = true) :
    jsTrim (collapseWs (b ++ X)) = jsTrim (collapseWs X) := by
  cases b with
  | nil => rfl
  | cons a t =>
    have ha : jsWs a = true := hb a (List.mem_cons_self a t)
    unfold collapseWs
    rw [List.cons_append]
    simp only [collapseWsGo, ha, if_true, Bool.false_eq_true, if_false]
    rw [cGo_true_ws_front t X (fun x hx => hb x (List.mem_cons_of_mem a hx))]
    have hsp : ∀ x ∈ [' '], jsWs x = true := by decide
    rw [show (' ' :: collapseWsGo true X) = [' '] ++ collapseWsGo true X from rfl,
      jsTrim_ws_front [' '] (collapseWsGo true X) hsp]
    exact jsTrim_cGo_tf X

theorem trimCollapse_ws_suffix (Z b : List Char) (hb : ∀ x ∈ b, jsWs x = true) :
    jsTrim (collapseWs (Z ++ b)) = jsTrim (collapseWs Z) := by
  unfold collapseWs
  rw [collapseWsGo_append]
  exact jsTrim_append_ws (collapseWsGo false Z) (collapseWsGo (endWsFlag false Z) b)
    (cGo_all_ws (endWsFlag false Z) b hb)

theorem collapseWs_ws_before_sep (A b Q : List Char) (hb : ∀ x ∈ b, jsWs x = true) :
    collapseWs (A ++ (b ++ ' ' :: Q)) = collapseWs (A ++ ' ' :: Q) := by
  unfold collapseWs
  rw [collapseWsGo_append A (b ++ ' ' :: Q) false, collapseWsGo_append A (' ' :: Q) false,
    cGo_ws_sep b hb (endWsFlag false A) Q]

theorem collapseWs_ws_after_sep (A b Q : List Char) (hb : ∀ x ∈ b, jsWs x = true) :
    collapseWs (A ++ ' ' :: (b ++ Q)) = collapseWs (A ++ ' ' :: Q) := by
  unfold collapseWs
  rw [collapseWsGo_append A (' ' :: (b ++ Q)) false, collapseWsGo_append A (' ' :: Q) false,
    cGo_sep_ws (endWsFlag false A) b Q hb]

theorem eq_dropTrailing_append (p : Char → Bool) (l : List Char) :
    l = dropTrailing p l ++ (l.reverse.takeWhile p).reverse := by
  unfold dropTrailing
  rw [← List.reverse_append, List.takeWhile_append_dropWhile, List.reverse_reverse]

theorem trimCollapse_jsTrim (X : List Char) :
    jsTrim (collapseWs (jsTrim X)) = jsTrim (collapseWs X) := by
  have hws1 : ∀ x ∈ X.takeWhile jsWs, jsWs x = true :=
    fun x hx => List.mem_takeWhile_imp hx
  have hws2 : ∀ x ∈ ((jsTrimL X).reverse.takeWhile jsWs).reverse, jsWs x = true :=
    fun x hx => List.mem_takeWhile_imp (List.mem_reverse.mp hx)
  have h1 : X = X.takeWhile jsWs ++ jsTrimL X :=
    (List.takeWhile_append_dropWhile jsWs X).symm
  have h2 : jsTrimL X = jsTrim X ++ ((jsTrimL X).reverse.takeWhile jsWs).reverse :=
    eq_dropTrailing_append jsWs (jsTrimL X)
  calc jsTrim (collapseWs (jsTrim X))
      = jsTrim (collapseWs (jsTrim X ++ ((jsTrimL X).reverse.takeWhile jsWs).reverse)) :=
        (trimCollapse_ws_suffix _ _ hws2).symm
    _ = jsTrim (collapseWs (jsTrimL X)) := by rw [← h2]
    _ = jsTrim (collapseWs (X.takeWhile jsWs ++ jsTrimL X)) :=
        (trimCollapse_ws_front _ _ hws1).symm
    _ = jsTrim (collapseWs X) := by rw [← h1]

theorem jsTrimR_eq_dropTrailing (l : List Char) : jsTrimR l = dropTrailing jsWs l := rfl

/-- Claim C10: artist-name cleaning removes a parenthetical segment at any
position in the string, not only a trailing one, whenever its lowercased
content contains "pt", "listener" or "new release" as a substring (the
`noiseInner` test); the cleaned name is the same as if the whole
parenthetical were a single space between the surrounding pieces. -/
theorem c10_paren_noise_strip (pre inner post : String)
    (hp1 : '(' ∉ pre.data) (hi1 : ')' ∉ inner.data) (ho1 : '(' ∉ post.data)
    (hs1 : '*' ∉ pre.data) (hs2 : '*' ∉ inner.data) (hs3 : '*' ∉ post.data)
    (hn : noiseInner inner.data = true) :
    cleanArtistName (pre ++ "(" ++ inner ++ ")" ++ post) =
      cleanArtistName (pre ++ " " ++ post) := by
  have hjsp : jsWs '(' = false := by decide
  have hjsc : jsWs ')' = false := by decide
  have hD : (pre ++ "(" ++ inner ++ ")" ++ post).data
      = pre.data ++ '(' :: (inner.data ++ ')' :: post.data) := by
    rw [String.data_append, String.data_append, String.data_append, String.data_append]
    rw [show ("(" : String).data = ['('] from rfl, show (")" : String).data = [')'] from rfl]
    simp [List.append_assoc]
  have hD2 : (pre ++ " " ++ post).data = pre.data ++ ' ' :: post.data := by
    rw [String.data_append, String.data_append]
    rw [show (" " : String).data = [' '] from rfl]
    simp [List.append_assoc]
  have hL2 : jsTrim (pre.data ++ '(' :: (inner.data ++ ')' :: post.data))
      = pre.data.dropWhile jsWs ++ '(' :: (inner.data ++ ')' :: jsTrimR post.data) := by
    unfold jsTrim jsTrimL
    rw [dropWhile_append_stop jsWs pre.data '(' (inner.data ++ ')' :: post.data) hjsp]
    rw [show ('(' : Char) :: (inner.data ++ ')' :: post.data)
        = ('(' :: inner.data) ++ ')' :: post.data from by rw [List.cons_append]]
    rw [← List.append_assoc]
    rw [jsTrimR_append_stop (pre.data.dropWhile jsWs ++ '(' :: inner.data) ')' post.data hjsc]
    rw [List.append_assoc, List.cons_append]
  have hmemL : ∀ x ∈ pre.data.dropWhile jsWs ++ '(' :: (inner.data ++ ')' :: jsTrimR post.data),
      x = '(' ∨ x = ')' ∨ x ∈ pre.data ∨ x ∈ inner.data ∨ x ∈ post.data := by
    intro x hx
    rcases List.mem_append.mp hx with hx | hx
    · exact Or.inr (Or.inr (Or.inl (mem_of_mem_dropWhileChars hx)))
    · rcases List.mem_cons.mp hx with hx | hx
      · exact Or.inl hx
      · rcases List.mem_append.mp hx with hx | hx
        · exact Or.inr (Or.inr (Or.inr (Or.inl hx)))
        · rcases List.mem_cons.mp hx with hx | hx
          · exact Or.inr (Or.inl hx)
          · exact Or.inr (Or.inr (Or.inr (Or.inr (mem_of_mem_jsTrimR hx))))
  have hstarL : '*' ∉ pre.data.dropWhile jsWs ++ '(' :: (inner.data ++ ')' :: jsTrimR post.data) := by
    intro hx
    rcases hmemL '*' hx with h | h | h | h | h
    · exact absurd h (by decide)
    · exact absurd h (by decide)
    · exact hs1 h
    · exact hs2 h
    · exact hs3 h
  have hpP : '(' ∉ pre.data.dropWhile jsWs := fun h => hp1 (mem_of_mem_dropWhileChars h)
  have hoQ : '(' ∉ jsTrimR post.data := fun h => ho1 (mem_of_mem_jsTrimR h)
  have hfuel : (pre.data.dropWhile jsWs).length + 1
      ≤ (pre.data.dropWhile jsWs ++ '(' :: (inner.data ++ ')' :: jsTrimR post.data)).length := by
    rw [List.length_append, List.length_cons]
    omega
  have hL4 : replaceParenSegs
        (pre.data.dropWhile jsWs ++ '(' :: (inner.data ++ ')' :: jsTrimR post.data))
      = dropTrailing jsWs (pre.data.dropWhile jsWs)
        ++ (parenReplacement inner.data ++ (jsTrimR post.data).dropWhile jsWs) := by
    unfold replaceParenSegs
    exact rpsGo_master _ _ _ hpP hi1 hoQ _ hfuel
  have hrep : parenReplacement inner.data = [' '] := by
    unfold parenReplacement
    rw [if_pos hn]
  have hLHS : cleanArtistName (pre ++ "(" ++ inner ++ ")" ++ post)
      = String.mk (jsTrim (collapseWs (dropTrailing jsWs (pre.data.dropWhile jsWs)
          ++ ' ' :: (jsTrimR post.data).dropWhile jsWs))) := by
    simp only [cleanArtistName, safeTextChars]
    rw [hD, hL2, stripTrailingStars_no_star _ hstarL, hL4, hrep,
      List.singleton_append]
  have hmemR : ∀ x ∈ jsTrim (pre.data ++ ' ' :: post.data),
      x = ' ' ∨ x ∈ pre.data ∨ x ∈ post.data := by
    intro x hx
    rcases List.mem_append.mp (mem_of_mem_jsTrim hx) with h | h
    · exact Or.inr (Or.inl h)
    · rcases List.mem_cons.mp h with h | h
      · exact Or.inl h
      · exact Or.inr (Or.inr h)
  have hstarR : '*' ∉ jsTrim (pre.data ++ ' ' :: post.data) := by
    intro hx
    rcases hmemR '*' hx with h | h | h
    · exact absurd h (by decide)
    · exact hs1 h
    · exact hs3 h
  have hparR : '(' ∉ jsTrim (pre.data ++ ' ' :: post.data) := by
    intro hx
    rcases hmemR '(' hx with h | h | h
    · exact absurd h (by decide)
    · exact hp1 h
    · exact ho1 h
  have hRHS : cleanArtistName (pre ++ " " ++ post)
      = String.mk (jsTrim (collapseWs (jsTrim (pre.data ++ ' ' :: post.data)))) := by
    simp only [cleanArtistName, safeTextChars]
    rw [hD2, stripTrailingStars_no_star _ hstarR]
    unfold replaceParenSegs
    rw [rpsGo_no_paren _ _ hparR]
  rw [hLHS, hRHS]
  refine congrArg String.mk ?_
  rw [trimCollapse_jsTrim]
  refine Eq.symm ?_
  calc jsTrim (collapseWs (pre.data ++ ' ' :: post.data))
      = jsTrim (collapseWs (pre.data.takeWhile jsWs
          ++ (pre.data.dropWhile jsWs ++ ' ' :: post.data))) := by
        rw [← List.append_assoc, List.takeWhile_append_dropWhile]
    _ = jsTrim (collapseWs (pre.data.dropWhile jsWs ++ ' ' :: post.data)) :=
        trimCollapse_ws_front _ _ (fun x hx => List.mem_takeWhile_imp hx)
    _ = jsTrim (collapseWs (dropTrailing jsWs (pre.data.dropWhile jsWs)
          ++ (((pre.data.dropWhile jsWs).reverse.takeWhile jsWs).reverse
            ++ ' ' :: post.data))) := by
        rw [← List.append_assoc, ← eq_dropTrailing_append]
    _ = jsTrim (collapseWs (dropTrailing jsWs (pre.data.dropWhile jsWs)
          ++ ' ' :: post.data)) := by
        rw [collapseWs_ws_before_sep _ _ _
          (fun x hx => List.mem_takeWhile_imp (List.mem_reverse.mp hx))]
    _ = jsTrim (collapseWs ((dropTrailing jsWs (pre.data.dropWhile jsWs)
          ++ ' ' :: dropTrailing jsWs post.data)
          ++ (post.data.reverse.takeWhile jsWs).reverse)) := by
        rw [List.append_assoc, List.cons_append, ← eq_dropTrailing_append]
    _ = jsTrim (collapseWs (dropTrailing jsWs (pre.data.dropWhile jsWs)
          ++ ' ' :: dropTrailing jsWs post.data)) :=
        trimCollapse_ws_suffix _ _
          (fun x hx => List.mem_takeWhile_imp (List.mem_reverse.mp hx))
    _ = jsTrim (collapseWs (dropTrailing jsWs (pre.data.dropWhile jsWs)
          ++ ' ' :: ((dropTrailing jsWs post.data).takeWhile jsWs
            ++ (dropTrailing jsWs post.data).dropWhile jsWs))) := by
        rw [List.takeWhile_append_dropWhile]
    _ = jsTrim (collapseWs (dropTrailing jsWs (pre.data.dropWhile jsWs)
          ++ ' ' :: (dropTrailing jsWs post.data).dropWhile jsWs)) := by
        rw [collapseWs_ws_after_sep _ _ _ (fun x hx => List.mem_takeWhile_imp hx)]
    _ = jsTrim (collapseWs (dropTrailing jsWs (pre.data.dropWhile jsWs)
          ++ ' ' :: (jsTrimR post.data).dropWhile jsWs)) := by
        rw [jsTrimR_eq_dropTrailing]

/-- Witness for C10: a mid-string "(Pt. 2)" parenthetical is stripped (its
lowered content contains "pt"), and the concrete evaluations show
"Artist (Pt. 2) Band" cleans to "Artist Band" and the non-metadata
"Artist (Empty)" also loses its parenthetical. -/
theorem c10_witness :
    cleanArtistName ("Artist " ++ "(" ++ "Pt. 2" ++ ")" ++ " Band") =
        cleanArtistName ("Artist " ++ " " ++ " Band")
      ∧ cleanArtistName "Artist (Pt. 2) Band" = "Artist Band"
      ∧ cleanArtistName "Artist (Empty)" = "Artist"
      ∧ noiseInner "Empty".data = true :=
  ⟨c10_paren_noise_strip "Artist " "Pt. 2" " Band" (by decide) (by decide) (by decide)
      (by decide) (by decide) (by decide) (by decide),
    by decide, by decide, by decide⟩
